import Mathlib

/-!
Verification development for the sql-sage-py natural-language-to-SQL bridge.

The repository contains three variants of the table-reference normalizer
(`formatQueryWithDatabasePrefix` in `llm_integration.py`, `api_routes.py` and
`query_generation.py`), two variants of the response extractor
(`extract_sql_from_response` in `api_routes.py` and `llm_integration.py`),
the refinement helper `refine_sql_with_feedback` (`api_routes.py`) and the
constant `MAX_RETRIES`.  This file gives a shallow embedding of those
functions: Python regular expressions are embedded as deterministic
scanners whose backtracking behaviour is reproduced explicitly, strings are
lists of characters, and machine-level concerns (Unicode word characters,
Unicode whitespace) are modelled over ASCII, which is the alphabet all the
patterns and all inputs of interest use.
-/

namespace SqlSage

/-- ASCII whitespace, the characters matched by `\s` in the Python patterns
(space, tab, newline, carriage return, vertical tab, form feed). -/
def isWs (c : Char) : Bool :=
  c = ' ' || c = '\t' || c = '\n' || c = '\r' || c = '\x0b' || c = '\x0c'

/-- ASCII word characters, the characters matched by `\w`. -/
def isWordChar (c : Char) : Bool :=
  ('a' ≤ c && c ≤ 'z') || ('A' ≤ c && c ≤ 'Z') || ('0' ≤ c && c ≤ '9') || c = '_'

/-- Characters admitted by the qualifier class `[^\s\[\].,)]` of the
`llm_integration.py` table pattern. -/
def isC1 (c : Char) : Bool :=
  !isWs c && !(c = '[') && !(c = ']') && !(c = '.') && !(c = ',') && !(c = ')')

/-- Characters admitted by the table-name class `[^\s\[\].,);]`. -/
def isC2 (c : Char) : Bool :=
  isC1 c && !(c = ';')

/-- `c` is one of the two given case variants (used for the
case-insensitive keyword letters of `re.IGNORECASE`). -/
def chIs (c lo hi : Char) : Bool := c = lo || c = hi

/-- Greedy character-class run: the `(takeWhile, dropWhile)` split written as
one recursive function so that the scanners compute by `decide`. -/
def takeC (p : Char → Bool) : List Char → List Char × List Char
  | [] => ([], [])
  | c :: cs =>
    if p c then
      let r := takeC p cs
      (c :: r.1, r.2)
    else ([], c :: cs)

/-- Greedy optional single character (`\[?`, `\]?`): consume `t` if it is the
head.  Skipping a present `t` never helps any of the embedded patterns
(the following pattern atoms cannot match `[` or `]`), so this is exact. -/
def optChar (t : Char) : List Char → List Char × List Char
  | [] => ([], [])
  | c :: cs => if c = t then ([c], cs) else ([], c :: cs)

/-- The test `kwHead4 [c1,c2,c3,c4]` holds when the four characters spell
`FROM` or `JOIN` case-insensitively. -/
def kwHead4 : List Char → Bool
  | [a, b, c, d] =>
    (chIs a 'f' 'F' && chIs b 'r' 'R' && chIs c 'o' 'O' && chIs d 'm' 'M') ||
    (chIs a 'j' 'J' && chIs b 'o' 'O' && chIs c 'i' 'I' && chIs d 'n' 'N')
  | _ => false

/-- A character that can begin the keyword `FROM` or `JOIN`. -/
def kwFirst (c : Char) : Bool := chIs c 'f' 'F' || chIs c 'j' 'J'

/-- `(FROM|JOIN)` with `re.IGNORECASE`: match the four-letter keyword at the
head, returning the matched text (case preserved, it is the replacement's
`clause`) and the rest. -/
def matchKw : List Char → Option (List Char × List Char)
  | c1 :: c2 :: c3 :: c4 :: rest =>
    if kwHead4 [c1, c2, c3, c4] then some ([c1, c2, c3, c4], rest) else none
  | _ => none

/-- One qualifier `\[?([^\s\[\].,)]+)\]?\.` of the `llm_integration.py`
pattern.  Returns `(captured part, consumed text, rest)`.  The greedy run
admits no useful backtracking: a shortened run ends at a class character,
which can match neither `\]` nor `\.`. -/
def matchQual (cs : List Char) : Option (List Char × List Char × List Char) :=
  let s1 := optChar '[' cs
  let s2 := takeC isC1 s1.2
  if s2.1.isEmpty then none
  else
    let s3 := optChar ']' s2.2
    match s3.2 with
    | c :: cs4 => if c = '.' then some (s2.1, s1.1 ++ s2.1 ++ s3.1 ++ [c], cs4) else none
    | [] => none

/-- The final table atom `\[?([^\s\[\].,);]+)\]?`.  Returns
`(captured part, consumed text, rest)`. -/
def matchTable (cs : List Char) : Option (List Char × List Char × List Char) :=
  let s1 := optChar '[' cs
  let s2 := takeC isC2 s1.2
  if s2.1.isEmpty then none
  else
    let s3 := optChar ']' s2.2
    some (s2.1, s1.1 ++ s2.1 ++ s3.1, s3.2)

/-- The captured groups of the `llm_integration.py` table pattern:
`first_part` (group 2), `second_part` (group 3) and `third_part` (group 4).
The final atom is mandatory, so `third` is always present. -/
structure RefGroups where
  first : Option (List Char)
  second : Option (List Char)
  table : List Char
deriving DecidableEq, Repr

/-- The identifier chain
`(?:\[?(..)\]?\.)?(?:\[?(..)\]?\.)?(?:\[?(..)\]?)` with Python's
backtracking order made explicit: try qualifier A, qualifier B, table; on
failure of the table drop B, then drop A.  Retrying B at the original
position after dropping A repeats A's (deterministic) parse and the already
failed table position, so the scan goes directly to the bare-table case. -/
def matchRef (cs : List Char) : Option (RefGroups × List Char × List Char) :=
  match matchQual cs with
  | some (a, ca, ra) =>
    match matchQual ra with
    | some (b, cb, rb) =>
      match matchTable rb with
      | some (t, ct, rt) => some (⟨some a, some b, t⟩, ca ++ cb ++ ct, rt)
      | none =>
        match matchTable ra with
        | some (t, ct, rt) => some (⟨some a, none, t⟩, ca ++ ct, rt)
        | none =>
          match matchTable cs with
          | some (t, ct, rt) => some (⟨none, none, t⟩, ct, rt)
          | none => none
    | none =>
      match matchTable ra with
      | some (t, ct, rt) => some (⟨some a, none, t⟩, ca ++ ct, rt)
      | none =>
        match matchTable cs with
        | some (t, ct, rt) => some (⟨none, none, t⟩, ct, rt)
        | none => none
  | none =>
    match matchTable cs with
    | some (t, ct, rt) => some (⟨none, none, t⟩, ct, rt)
    | none => none

/-- The full match attempt of
`\b(FROM|JOIN)\s+(?:\[?(..)\]?\.)?(?:\[?(..)\]?\.)?(?:\[?(..)\]?)` at the
head of `cs`, without the word-boundary test (handled by the scanner).
Returns `(clause, whitespace run, groups, chain text, rest)`. -/
def matchCore (cs : List Char) : Option (List Char × List Char × RefGroups × List Char × List Char) :=
  match matchKw cs with
  | none => none
  | some (cl, r1) =>
    let w := takeC isWs r1
    if w.1.isEmpty then none
    else
      match matchRef w.2 with
      | some (g, cons, rest) => some (cl, w.1, g, cons, rest)
      | none => none

/-- `\b` before the keyword: the keyword starts with a word character, so
the boundary holds exactly when the previous character (if any) is not a
word character. -/
def boundaryOk : Option Char → Bool
  | none => true
  | some c => !isWordChar c

/-- The SQL type names of `sql_data_types` in `llm_integration.py`,
lowercase. -/
def typeTokens : List (List Char) :=
  ["int".data, "bigint".data, "varchar".data, "nvarchar".data, "char".data,
   "nchar".data, "text".data, "datetime".data, "date".data, "time".data,
   "bit".data, "float".data, "decimal".data, "money".data, "real".data,
   "smallint".data, "tinyint".data, "uniqueidentifier".data, "xml".data,
   "image".data, "binary".data, "varbinary".data, "timestamp".data,
   "geography".data, "geometry".data]

/-- `needle` occurs as a contiguous substring of `hay`. -/
def subSeqOf (needle : List Char) : List Char → Bool
  | [] => needle.isEmpty
  | c :: cs => needle.isPrefixOf (c :: cs) || subSeqOf needle cs

/-- `re.search(sql_data_types, part, re.IGNORECASE)`: some type name occurs
case-insensitively inside `part`. -/
def containsToken (part : List Char) : Bool :=
  typeTokens.any (fun t => subSeqOf t (part.map Char.toLower))

/-- `re.search(r'[\s,()]', part) or len(part) > 128`: the schema-validity
test of `llm_integration.py`. -/
def partInvalid (part : List Char) : Bool :=
  part.any (fun c => isWs c || c = ',' || c = '(' || c = ')') || part.length > 128

/-- `if part and re.search(sql_data_types, part, ...)` over an optional
captured group. -/
def tokCheck : Option (List Char) → Bool
  | none => false
  | some p => !p.isEmpty && containsToken p

/-- `if part and (re.search(r'[\s,()]', part) or len(part) > 128)` over an
optional captured group. -/
def invCheck : Option (List Char) → Bool
  | none => false
  | some p => !p.isEmpty && partInvalid p

/-- The text ` [db].[s].[t]` produced by every rewriting branch of the
replacement functions (the f-string `f"{clause} [{db}].[{s}].[{t}]"`,
minus the clause). -/
def refChain (db s t : List Char) : List Char :=
  '[' :: db ++ ']' :: '.' :: '[' :: s ++ ']' :: '.' :: '[' :: t ++ [']']

/-- `refChain` preceded by the space that separates it from the clause. -/
def mkRef (db s t : List Char) : List Char := ' ' :: refChain db s t

/-- `replace_table_ref` of `llm_integration.py`: type-token and validity
defense first, then the branch on which groups are present.  The regex
guarantees a non-empty third group, so the source's defensive
`return match.group(0)` branch is unreachable and the four reachable
branches are exactly these. -/
def replaceRef (db cl : List Char) (g : RefGroups) : List Char :=
  let cdt := tokCheck g.first || tokCheck g.second
  let bad := invCheck g.first || invCheck g.second
  if cdt || bad then cl ++ mkRef db "dbo".data g.table
  else
    match g.first, g.second with
    | some _, some b => cl ++ mkRef db b g.table
    | none, some b => cl ++ mkRef db b g.table
    | some _, none => cl ++ mkRef db "dbo".data g.table
    | none, none => cl ++ mkRef db "dbo".data g.table

/-- One step of `re.sub`: either a copied character or a match, recorded
with the matched pieces so that both the original text and the rewritten
text can be recovered. -/
inductive Seg where
  | copy (c : Char)
  | rep (cl ws : List Char) (g : RefGroups) (cons : List Char)
deriving DecidableEq, Repr

/-- The original text a segment stands for. -/
def origSeg : Seg → List Char
  | .copy c => [c]
  | .rep cl ws _ cons => cl ++ ws ++ cons

/-- The original text of a segment list. -/
def orig (segs : List Seg) : List Char := (segs.map origSeg).flatten

/-- The replacement text of a segment (matching `re.sub`'s output).  The
matcher does not read the database name, so segments are database-free and
rendering takes it as a parameter. -/
def renderSeg (db : List Char) : Seg → List Char
  | .copy c => [c]
  | .rep cl _ g _ => replaceRef db cl g

/-- The rewritten text of a segment list. -/
def render (db : List Char) (segs : List Seg) : List Char :=
  (segs.map (renderSeg db)).flatten

/-- The `re.sub` scan of `llm_integration.py`'s table pattern: at each
position attempt the match (word boundary first); on success emit a
match segment and resume after the matched text, whose last character
becomes the context for the next boundary test; otherwise copy one
character.  Fuel is the input length; each step consumes at least one
character, so the fuel-exhausted branch is unreachable from `fmtLLM`. -/
def scanSegs : Nat → Option Char → List Char → List Seg
  | 0, _, cs => cs.map Seg.copy
  | _ + 1, _, [] => []
  | fuel + 1, prev, c :: cs =>
    if boundaryOk prev then
      match matchCore (c :: cs) with
      | some (cl, ws, g, cons, rest) => .rep cl ws g cons :: scanSegs fuel cons.getLast? rest
      | none => .copy c :: scanSegs fuel (some c) cs
    else .copy c :: scanSegs fuel (some c) cs

/-- `formatQueryWithDatabasePrefix` of `llm_integration.py`: guard
`if not query or not database_name: return query`, then the pattern
substitution. -/
def fmtLLM (q db : String) : String :=
  if q.data.isEmpty || db.data.isEmpty then q
  else ⟨render db.data (scanSegs q.data.length none q.data)⟩

/-! ### The `api_routes.py` normalizer

Pattern: `\b(FROM|JOIN)\s+(?!\[?[\w]+\]?\.\[?[\w]+\]?\.\[?)([\w\[\]]+)`. -/

/-- The lookahead unit `\[?[\w]+\]?\.`: optional bracket, word run, optional
bracket, dot; deterministic for the same reason as `matchQual`.  Returns the
rest on success (the lookahead captures nothing). -/
def matchQualW (cs : List Char) : Option (List Char) :=
  let s1 := optChar '[' cs
  let s2 := takeC isWordChar s1.2
  if s2.1.isEmpty then none
  else
    let s3 := optChar ']' s2.2
    match s3.2 with
    | c :: cs4 => if c = '.' then some cs4 else none
    | [] => none

/-- Characters of the `api_routes.py` capture class `[\w\[\]]`. -/
def isWB (c : Char) : Bool := isWordChar c || c = '[' || c = ']'

/-- A bracket character, for Python's `str.strip('[]')`. -/
def isBr (c : Char) : Bool := c = '[' || c = ']'

/-- Python `s.strip('[]')`: remove all leading and trailing bracket
characters. -/
def stripBr (xs : List Char) : List Char :=
  ((xs.dropWhile isBr).reverse.dropWhile isBr).reverse

/-- Match attempt of the `api_routes.py` pattern at the head of `cs`
(without the boundary test): keyword, whitespace, then the negative
lookahead `(?!\[?[\w]+\]?\.\[?[\w]+\]?\.\[?)` (its final `\[?` always
matches, so only the two dot-terminated units decide it), then the greedy
capture `([\w\[\]]+)`.  Returns `(clause, captured group, rest)`. -/
def matchCoreAPI (cs : List Char) : Option (List Char × List Char × List Char) :=
  match matchKw cs with
  | none => none
  | some (cl, r1) =>
    let w := takeC isWs r1
    if w.1.isEmpty then none
    else
      let la :=
        match matchQualW w.2 with
        | some r3 => (matchQualW r3).isSome
        | none => false
      if la then none
      else
        let g := takeC isWB w.2
        if g.1.isEmpty then none else some (cl, g.1, g.2)

/-- The `re.sub` scan for `api_routes.py`'s pattern with replacement
`f"{clause} [{databaseName}].[dbo].[{table}]"`, where `table` is the
captured group with brackets stripped. -/
def scanAPI (db : List Char) : Nat → Option Char → List Char → List Char
  | 0, _, cs => cs
  | _ + 1, _, [] => []
  | fuel + 1, prev, c :: cs =>
    if boundaryOk prev then
      match matchCoreAPI (c :: cs) with
      | some (cl, grp, rest) =>
        (cl ++ mkRef db "dbo".data (stripBr grp)) ++ scanAPI db fuel grp.getLast? rest
      | none => c :: scanAPI db fuel (some c) cs
    else c :: scanAPI db fuel (some c) cs

/-- `formatQueryWithDatabasePrefix` of `api_routes.py`: guard
`if not databaseName: return query` (no guard on the query), then the
substitution. -/
def fmtAPI (q db : String) : String :=
  if db.data.isEmpty then q
  else ⟨scanAPI db.data q.data.length none q.data⟩

/-! ### The `query_generation.py` normalizer

Pattern:
`\b(FROM|JOIN)\s+(?!\[?[\w]+\]?\.\[?[\w]+\]?\.\[?[\w]+\]?)(\[?[\w]+\]?)(?:\.\[?([\w]+)\]?)?`. -/

/-- The lookahead tail `\[?[\w]+\]?` (no dot; its trailing `\]?` always
succeeds, so success only needs the word run). -/
def matchPartW (cs : List Char) : Bool :=
  let s1 := optChar '[' cs
  let s2 := takeC isWordChar s1.2
  !s2.1.isEmpty

/-- Match attempt of the `query_generation.py` pattern at the head of `cs`:
keyword, whitespace, negative lookahead for a full three-part name, the
capture `(\[?[\w]+\]?)` and the optional `(?:\.\[?([\w]+)\]?)?`.  Returns
`(clause, first word run, optional second run, consumed chain text, rest)`;
the brackets around the first capture are stripped by the replacement, so
only the word run is kept. -/
def matchCoreQG (cs : List Char) :
    Option (List Char × List Char × Option (List Char) × List Char × List Char) :=
  match matchKw cs with
  | none => none
  | some (cl, r1) =>
    let w := takeC isWs r1
    if w.1.isEmpty then none
    else
      let la :=
        match matchQualW w.2 with
        | some r3 =>
          match matchQualW r3 with
          | some r4 => matchPartW r4
          | none => false
        | none => false
      if la then none
      else
        let s1 := optChar '[' w.2
        let s2 := takeC isWordChar s1.2
        if s2.1.isEmpty then none
        else
          let s3 := optChar ']' s2.2
          match s3.2 with
          | '.' :: r5 =>
            let s4 := optChar '[' r5
            let s5 := takeC isWordChar s4.2
            if s5.1.isEmpty then
              some (cl, s2.1, none, s1.1 ++ s2.1 ++ s3.1, s3.2)
            else
              let s6 := optChar ']' s5.2
              some (cl, s2.1, some s5.1,
                s1.1 ++ s2.1 ++ s3.1 ++ '.' :: (s4.1 ++ s5.1 ++ s6.1), s6.2)
          | _ => some (cl, s2.1, none, s1.1 ++ s2.1 ++ s3.1, s3.2)

/-- The `re.sub` scan for `query_generation.py`'s pattern: with a second
part the replacement is `f"{clause} [{db}].[{schema}].[{table}]"`,
otherwise `f"{clause} [{db}].[dbo].[{table}]"`. -/
def scanQG (db : List Char) : Nat → Option Char → List Char → List Char
  | 0, _, cs => cs
  | _ + 1, _, [] => []
  | fuel + 1, prev, c :: cs =>
    if boundaryOk prev then
      match matchCoreQG (c :: cs) with
      | some (cl, p1, p2, cons, rest) =>
        (match p2 with
         | some sec => cl ++ mkRef db p1 sec
         | none => cl ++ mkRef db "dbo".data p1) ++ scanQG db fuel cons.getLast? rest
      | none => c :: scanQG db fuel (some c) cs
    else c :: scanQG db fuel (some c) cs

/-- `formatQueryWithDatabasePrefix` of `query_generation.py`: guard
`if not query or not database_name: return query`, then the substitution. -/
def fmtQG (q db : String) : String :=
  if q.data.isEmpty || db.data.isEmpty then q
  else ⟨scanQG db.data q.data.length none q.data⟩

/-! ### Response extraction (`extract_sql_from_response`) -/

/-- Split at the first occurrence of `pat`, returning the text before it and
the text after it (`pat` removed).  This is the search step shared by the
`<think>` and fenced-block patterns. -/
def splitFirst (pat : List Char) : List Char → Option (List Char × List Char)
  | [] => if pat.isEmpty then some ([], []) else none
  | c :: cs =>
    if pat.isPrefixOf (c :: cs) then some ([], (c :: cs).drop pat.length)
    else
      match splitFirst pat cs with
      | some (b, a) => some (c :: b, a)
      | none => none

/-- Right trim of ASCII whitespace. -/
def rstripWs (xs : List Char) : List Char := (xs.reverse.dropWhile isWs).reverse

/-- Python `str.strip()` over ASCII whitespace. -/
def pyStrip (xs : List Char) : List Char := rstripWs (xs.dropWhile isWs)

/-- `re.search(r"<think>(.*?)</think>", text, re.DOTALL)`: the lazy content
runs from the first `<think>` to the first `</think>` after it.  If the
first opener has no closer after it, no later opener has one either, so the
search fails.  Returns `(group 1, text after the match)`. -/
def findThink (cs : List Char) : Option (List Char × List Char) :=
  match splitFirst "<think>".data cs with
  | none => none
  | some (_, after) =>
    match splitFirst "</think>".data after with
    | none => none
    | some (content, rest) => some (content, rest)

/-- `re.findall(r"```sql\s*(.*?)\s*```", text, re.DOTALL)`: repeatedly find
an opener, absorb the greedy leading `\s*`, and close at the first
following triple backtick — the lazy content makes the earliest closing
position win, with the `\s*` before it absorbing the whole trailing
whitespace run.  Scanning resumes after the closing backticks.  Fuel bounds
the recursion; each block consumes at least nine characters, so the input
length is ample. -/
def sqlBlocksF : Nat → List Char → List (List Char)
  | 0, _ => []
  | fuel + 1, cs =>
    match splitFirst "```sql".data cs with
    | none => []
    | some (_, after) =>
      let body := after.dropWhile isWs
      match splitFirst "```".data body with
      | none => []
      | some (mid, rest) => rstripWs mid :: sqlBlocksF fuel rest

/-- The list of fenced SQL block contents of a text. -/
def sqlBlocks (cs : List Char) : List (List Char) := sqlBlocksF cs.length cs

/-- `extract_sql_from_response` of `api_routes.py`: take the chain of
thought out with the `<think>` pattern, consider only the text after a
matched closing tag, collect the fenced SQL blocks there and return the
last one (stripped) together with the stripped think text. -/
def extract_sql_api (t : String) : Option String × Option String :=
  let tm := findThink t.data
  let think :=
    match tm with
    | some (c, _) => some (String.mk (pyStrip c))
    | none => none
  let post :=
    match tm with
    | some (_, r) => r
    | none => t.data
  let q :=
    match (sqlBlocks post).getLast? with
    | some b => some (String.mk (pyStrip b))
    | none => none
  (q, think)

/-- `re.match(r"\bSELECT\b", line, re.IGNORECASE)` on an already stripped
line: the line starts with the six letters of `SELECT` (any case) followed
by a non-word character or the end. -/
def startsSelect (l : List Char) : Bool :=
  match l with
  | c1 :: c2 :: c3 :: c4 :: c5 :: c6 :: rest =>
    chIs c1 's' 'S' && chIs c2 'e' 'E' && chIs c3 'l' 'L' && chIs c4 'e' 'E' &&
    chIs c5 'c' 'C' && chIs c6 't' 'T' &&
    (match rest with
     | [] => true
     | r :: _ => !isWordChar r)
  | _ => false

/-- `re.search(r"\bSELECT\b", text, re.IGNORECASE)`: some position with a
word boundary starts the word `SELECT`. -/
def hasSelectW : Option Char → List Char → Bool
  | _, [] => false
  | prev, c :: cs => (boundaryOk prev && startsSelect (c :: cs)) || hasSelectW (some c) cs

/-- Python `text.split("\n")`. -/
def splitNl : List Char → List (List Char)
  | [] => [[]]
  | c :: cs =>
    if c = '\n' then [] :: splitNl cs
    else
      match splitNl cs with
      | l :: ls => (c :: l) :: ls
      | [] => [[c]]

/-- The line-accumulation loop of the `llm_integration.py` fallback: once a
line starting with `SELECT` is seen, collect lines; a line containing `;`
is collected and ends the loop. -/
def collectSel : Bool → List (List Char) → List (List Char)
  | _, [] => []
  | inq, l :: ls =>
    let inq2 := inq || startsSelect l
    if inq2 then
      if l.any (fun c => c = ';') then [l] else l :: collectSel inq2 ls
    else collectSel inq2 ls

/-- `" ".join(lines)`. -/
def joinSp : List (List Char) → List Char
  | [] => []
  | [l] => l
  | l :: ls => l ++ ' ' :: joinSp ls

/-- The bare-`SELECT` fallback of `extract_sql_from_response` in
`llm_integration.py`: if the text mentions the word `SELECT`, scan the
stripped lines from the first line starting with `SELECT` up to a line
containing `;`, join them with spaces, strip, and drop one trailing
semicolon.  Otherwise (or with no collected lines) report failure. -/
def llmFallback (cs : List Char) : Option String × Option String :=
  if hasSelectW none cs then
    let lines := (splitNl cs).map pyStrip
    let sqlLines := collectSel false lines
    if sqlLines.isEmpty then (none, some "No SQL query found in the response")
    else
      let q := pyStrip (joinSp sqlLines)
      let q2 := if q.getLast? = some ';' then q.dropLast else q
      (some ⟨q2⟩, none)
  else (none, some "No SQL query found in the response")

/-- `extract_sql_from_response` of `llm_integration.py`: empty-response
guard, then `re.search` for the first fenced SQL block (the head of the
`findall` list), falling through to the `SELECT` fallback when the block is
missing or strips to nothing. -/
def extract_sql_llm (t : String) : Option String × Option String :=
  if t.data.isEmpty then (none, some "Empty response from model")
  else
    match (sqlBlocks t.data).head? with
    | some b =>
      let q := pyStrip b
      if q.isEmpty then llmFallback t.data else (some ⟨q⟩, none)
    | none => llmFallback t.data

/-! ### Refinement (`refine_sql_with_feedback`) and the retry orchestration -/

/-- The corrective prompt built by `refine_sql_with_feedback`. -/
def feedbackPrompt (sql err : String) : String :=
  "\n    The following SQL query failed to execute:\n\n    ```sql\n    " ++ sql ++
  "\n    ```\n\n    The error message returned was:\n    \"" ++ err ++
  "\"\n\n    Please generate only the corrected SQL query with no additional explanation or comments.\n    "

/-- A Python call outcome: a value, or an uncaught exception. -/
inductive PyResult (α : Type) where
  | ok (a : α)
  | exn (msg : String)
deriving DecidableEq, Repr

/-- `refine_sql_with_feedback` of `api_routes.py`.  `ollama` stands for
`query_ollama`, which returns `None` when the request fails
(`api_routes.py` line 94); in that case `extract_sql_from_response(None)`
executes `re.search` on `None` and raises `TypeError`.  With a response,
extraction runs and `return refined_sql if refined_sql else sql` keeps the
original query when no (non-empty) query was extracted. -/
def refine_sql_with_feedback (ollama : String → Option String) (sql err : String) :
    PyResult String :=
  match ollama (feedbackPrompt sql err) with
  | none => .exn "TypeError: expected string or bytes-like object"
  | some resp =>
    match (extract_sql_api resp).1 with
    | some q => .ok (if q.data.isEmpty then sql else q)
    | none => .ok sql

/-- `MAX_RETRIES` of `api_routes.py`. -/
def MAX_RETRIES : Nat := 3

/-- The attempt log entry (`QueryRefinementAttempt` of `api_routes.py`). -/
structure QueryRefinementAttempt where
  attempt : Nat
  query : String
  error : Option String
deriving DecidableEq, Repr

/-- The terminal state of one generation-to-execution cycle. -/
inductive PipelineResult where
  | success (finalQuery : String) (log : List QueryRefinementAttempt)
  | failed (lastError : String) (log : List QueryRefinementAttempt)
deriving DecidableEq, Repr

/-- Modelled from the spec: the retry orchestration around the Query
Executor (spec sections 4.6 and 8) is not present under `src/` — only its
ingredients (`MAX_RETRIES`, `refine_sql_with_feedback`, the
`QueryRefinementAttempt` model and the single-shot `execute_query` route)
are.  Per the spec: attempt execution; on failure invoke refine, re-attempt
execution, append the attempt to the ordered log, and stop after
`MAX_RETRIES` refinements, surfacing the last error plus the full log.
`exec q = some e` means execution of `q` failed with engine error `e`;
`refine` is the single-shot refinement of section 4.6. -/
def retryOrchestration (exec : String → Option String) (refine : String → String → String) :
    Nat → String → String → List QueryRefinementAttempt → PipelineResult
  | 0, _, lastErr, log => .failed lastErr log
  | n + 1, q, lastErr, log =>
    let q2 := refine q lastErr
    match exec q2 with
    | none => .success q2 log
    | some e =>
      retryOrchestration exec refine n q2 e (log ++ [⟨MAX_RETRIES - n, q2, some e⟩])

/-- Modelled from the spec: the full cycle
`Generating -> Extracting -> Normalizing -> Executing -> {Success | Failed}`
restricted to its execution/refinement tail, which is what the retry-bound
claim is about. -/
def runPipeline (exec : String → Option String) (refine : String → String → String)
    (q : String) : PipelineResult :=
  match exec q with
  | none => .success q []
  | some e => retryOrchestration exec refine MAX_RETRIES q e []

/-- The attempt log of a terminal state. -/
def logOf : PipelineResult → List QueryRefinementAttempt
  | .success _ log => log
  | .failed _ log => log

/-! ### Statement vocabulary for the claims -/

/-- A name part inside one bracket pair of a fully qualified reference: no
brackets, dots or whitespace. -/
def isNamePart (c : Char) : Bool :=
  !(c = '[') && !(c = ']') && !(c = '.') && !isWs c

/-- One bracketed part `[X]` with a non-empty clean `X`; returns the rest. -/
def brPart (cs : List Char) : Option (List Char) :=
  match cs with
  | '[' :: cs1 =>
    let s := takeC isNamePart cs1
    if s.1.isEmpty then none
    else
      match s.2 with
      | ']' :: cs2 => some cs2
      | _ => none
  | _ => none

/-- The text after `FROM`/`JOIN` whitespace is exactly a fully qualified
three-part bracketed reference `[db].[schema].[table]` — and not the start
of a longer chain: the character after the third part must not be a dot. -/
def refFullyQualified (cs : List Char) : Bool :=
  match brPart cs with
  | none => false
  | some r1 =>
    match r1 with
    | '.' :: r2 =>
      match brPart r2 with
      | none => false
      | some r3 =>
        match r3 with
        | '.' :: r4 =>
          match brPart r4 with
          | none => false
          | some r5 =>
            match r5 with
            | '.' :: _ => false
            | _ => true
        | _ => false
    | _ => false

/-- Every `FROM`/`JOIN` keyword of the text that is followed by whitespace
heads a fully qualified three-part bracketed table reference.  This is the
qualification-completeness checker the spec's property quantifies over. -/
def allRefsQualified : Option Char → List Char → Bool
  | _, [] => true
  | prev, c :: cs =>
    (if boundaryOk prev then
      match matchKw (c :: cs) with
      | some (_, r1) =>
        let w := takeC isWs r1
        if w.1.isEmpty then true else refFullyQualified w.2
      | none => true
     else true) &&
    allRefsQualified (some c) cs

/-- No position of the text begins the keyword `FROM` or `JOIN`
(case-insensitively); on such text the three normalizers are the
identity. -/
def kwFree : List Char → Bool
  | [] => true
  | c :: cs => !(matchKw (c :: cs)).isSome && kwFree cs

/-- The portion of a response the extractor scans for SQL blocks: the text
after the first matched `<think>...</think>` wrapper, or the whole text
when no wrapper matches. -/
def consideredText (t : String) : List Char :=
  match findThink t.data with
  | some (_, r) => r
  | none => t.data

/-- A database name that is a plain identifier: non-empty, at most 128
characters, word characters only, and containing no SQL type token.  The
amended idempotence claim is about these. -/
def DbIdent (db : List Char) : Prop :=
  db ≠ [] ∧ db.length ≤ 128 ∧ (∀ c ∈ db, isWordChar c = true) ∧ containsToken db = false

instance (db : List Char) : Decidable (DbIdent db) := by
  unfold DbIdent; infer_instance

/-- The invariants the regex guarantees for captured groups: all parts
non-empty runs of their character classes. -/
def PartsOk (g : RefGroups) : Prop :=
  (g.table ≠ [] ∧ ∀ c ∈ g.table, isC2 c = true) ∧
  (∀ p, g.first = some p → p ≠ [] ∧ ∀ c ∈ p, isC1 c = true) ∧
  (∀ p, g.second = some p → p ≠ [] ∧ ∀ c ∈ p, isC1 c = true)

/-- Well-formed scan traces: each segment records why the scanner produced
it — a failed match attempt for copies (or a failed boundary), a successful
one for rewrites, stated over the original text the trace stands for. -/
inductive WFs : Option Char → List Seg → Prop where
  | nil {prev} : WFs prev []
  | copy {prev c rest} :
      (boundaryOk prev = false ∨ matchCore (c :: orig rest) = none) →
      WFs (some c) rest → WFs prev (.copy c :: rest)
  | rep {prev cl ws g cons rest} :
      boundaryOk prev = true →
      matchCore (cl ++ ws ++ cons ++ orig rest) = some (cl, ws, g, cons, orig rest) →
      WFs cons.getLast? rest → WFs prev (.rep cl ws g cons :: rest)

/-- The relation between the pass-one scan context and the pass-two scan
context at an aligned position: either the contexts agree, or the pass-two
context allows a boundary while the upcoming original text cannot begin a
keyword anyway. -/
def PrevRel (prev p2 : Option Char) (upcoming : List Char) : Prop :=
  p2 = prev ∨
    (boundaryOk p2 = true ∧ ∀ z, upcoming.head? = some z → kwFirst z = false)

/-! ## Theorems

First the toolbox: inversion and determinism lemmas for the embedded
pattern atoms. -/

theorem strData_app (s t : String) : (s ++ t).data = s.data ++ t.data := rfl

theorem strMk_data (s : String) : (⟨s.data⟩ : String) = s := rfl

theorem isWs_cases {c : Char} (h : isWs c = true) :
    c = ' ' ∨ c = '\t' ∨ c = '\n' ∨ c = '\r' ∨ c = '\x0b' ∨ c = '\x0c' := by
  simpa [isWs, or_assoc] using h

theorem ws_facts {c : Char} (h : isWs c = true) :
    c ≠ '[' ∧ c ≠ ']' ∧ c ≠ '.' ∧ isC1 c = false ∧ isC2 c = false ∧
      isWordChar c = false ∧ isWB c = false ∧ kwFirst c = false := by
  rcases isWs_cases h with rfl | rfl | rfl | rfl | rfl | rfl <;> decide

theorem takeC_spec (p : Char → Bool) (l : List Char) :
    (takeC p l).1 ++ (takeC p l).2 = l := by
  induction l with
  | nil => rfl
  | cons c cs ih =>
    by_cases h : p c = true <;> simp [takeC, h, ih]

theorem takeC_fst_all (p : Char → Bool) (l : List Char) :
    ∀ c ∈ (takeC p l).1, p c = true := by
  induction l with
  | nil => intro c hc; simp [takeC] at hc
  | cons c cs ih =>
    intro d hd
    by_cases h : p c = true
    · simp [takeC, h] at hd
      rcases hd with rfl | hd
      · exact h
      · exact ih d hd
    · simp [takeC, h] at hd

theorem takeC_snd_head (p : Char → Bool) (l : List Char) {z : Char} {r : List Char}
    (h : (takeC p l).2 = z :: r) : p z = false := by
  induction l with
  | nil => simp [takeC] at h
  | cons c cs ih =>
    by_cases hc : p c = true
    · simp [takeC, hc] at h; exact ih h
    · simp [takeC, hc] at h
      rcases h with ⟨rfl, _⟩
      simpa using hc

theorem takeC_of_all {p : Char → Bool} {a : List Char} (h : ∀ c ∈ a, p c = true) :
    takeC p a = (a, []) := by
  induction a with
  | nil => rfl
  | cons c cs ih =>
    have hc := h c (by simp)
    simp [takeC, hc, ih fun d hd => h d (by simp [hd])]

theorem takeC_append_stop {p : Char → Bool} {w : Char} (hw : p w = false)
    (a t : List Char) :
    takeC p (a ++ w :: t) = ((takeC p a).1, (takeC p a).2 ++ w :: t) := by
  induction a with
  | nil => simp [takeC, hw]
  | cons c cs ih =>
    by_cases hc : p c = true <;> simp [takeC, hc, ih]

theorem optChar_spec (t : Char) (l : List Char) :
    (optChar t l).1 ++ (optChar t l).2 = l := by
  cases l with
  | nil => rfl
  | cons c cs => by_cases h : c = t <;> simp [optChar, h]

theorem chIs_cases {c lo hi : Char} (h : chIs c lo hi = true) : c = lo ∨ c = hi := by
  simpa [chIs] using h

theorem optChar_pos (t : Char) (cs : List Char) : optChar t (t :: cs) = ([t], cs) := by
  simp [optChar]

theorem optChar_neg {c t : Char} (h : c ≠ t) (cs : List Char) :
    optChar t (c :: cs) = ([], c :: cs) := by
  simp [optChar, h]

theorem kwHead4_shape {cl : List Char} (h : kwHead4 cl = true) :
    ∃ a b c d, cl = [a, b, c, d] := by
  match cl, h with
  | [a, b, c, d], _ => exact ⟨a, b, c, d, rfl⟩

theorem kwHead4_chars {a b c d : Char} (h : kwHead4 [a, b, c, d] = true) :
    ∀ x ∈ [a, b, c, d], isWordChar x = true ∧ isWs x = false := by
  have h' : ((a = 'f' ∨ a = 'F') ∧ (b = 'r' ∨ b = 'R') ∧ (c = 'o' ∨ c = 'O') ∧
      (d = 'm' ∨ d = 'M')) ∨
      ((a = 'j' ∨ a = 'J') ∧ (b = 'o' ∨ b = 'O') ∧ (c = 'i' ∨ c = 'I') ∧
      (d = 'n' ∨ d = 'N')) := by
    simpa [kwHead4, chIs, and_assoc] using h
  rcases h' with ⟨ha | ha, hb | hb, hc | hc, hd | hd⟩ | ⟨ha | ha, hb | hb, hc | hc, hd | hd⟩ <;>
    subst_vars <;> decide

theorem kwHead4_first {a b c d : Char} (h : kwHead4 [a, b, c, d] = true) :
    kwFirst a = true := by
  have h' : ((a = 'f' ∨ a = 'F') ∧ (b = 'r' ∨ b = 'R') ∧ (c = 'o' ∨ c = 'O') ∧
      (d = 'm' ∨ d = 'M')) ∨
      ((a = 'j' ∨ a = 'J') ∧ (b = 'o' ∨ b = 'O') ∧ (c = 'i' ∨ c = 'I') ∧
      (d = 'n' ∨ d = 'N')) := by
    simpa [kwHead4, chIs, and_assoc] using h
  rcases h' with ⟨ha | ha, _, _, _⟩ | ⟨ha | ha, _, _, _⟩ <;> subst_vars <;> decide

theorem matchKw_some {cs cl r : List Char} (h : matchKw cs = some (cl, r)) :
    cs = cl ++ r ∧ kwHead4 cl = true := by
  match cs, h with
  | c1 :: c2 :: c3 :: c4 :: rest, h =>
    by_cases hk : kwHead4 [c1, c2, c3, c4] = true
    · simp [matchKw, hk] at h
      obtain ⟨rfl, rfl⟩ := h
      exact ⟨rfl, hk⟩
    · simp [matchKw, hk] at h

theorem matchKw_of_head {a b c d : Char} (h : kwHead4 [a, b, c, d] = true)
    (r : List Char) : matchKw (a :: b :: c :: d :: r) = some ([a, b, c, d], r) := by
  simp [matchKw, h]

/-- What a successful qualifier parse guarantees. -/
theorem matchQual_some {cs part cons rest : List Char}
    (h : matchQual cs = some (part, cons, rest)) :
    cs = cons ++ rest ∧ part ≠ [] ∧ (∀ c ∈ part, isC1 c = true) ∧ cons ≠ [] := by
  unfold matchQual at h
  rcases hO : optChar '[' cs with ⟨b1, cs1⟩
  rw [hO] at h
  dsimp only at h
  rcases hT : takeC isC1 cs1 with ⟨run, cs2⟩
  rw [hT] at h
  dsimp only at h
  by_cases he : run.isEmpty
  · simp [he] at h
  · simp only [he, if_false, Bool.false_eq_true] at h
    rcases hO2 : optChar ']' cs2 with ⟨b2, cs3⟩
    rw [hO2] at h
    dsimp only at h
    match cs3, h with
    | c :: cs4, h =>
      by_cases hd : c = '.'
      · simp only [hd, if_pos rfl] at h
        obtain ⟨rfl, rfl, rfl⟩ := h
        subst hd
        refine ⟨?_, ?_, ?_, by simp⟩
        · have e1 := optChar_spec '[' cs
          have e2 := takeC_spec isC1 cs1
          have e3 := optChar_spec ']' cs2
          rw [hO] at e1; rw [hT] at e2; rw [hO2] at e3
          simp only [← e1, ← e2, ← e3]
          simp
        · simpa [List.isEmpty_iff] using he
        · intro c hc
          have := takeC_fst_all isC1 cs1
          rw [hT] at this
          exact this c hc
      · simp [hd] at h

/-- What a successful table parse guarantees, including the shape of what
follows: either the consumed text ends with `]`, or the rest starts with a
character outside the table class (and distinct from `]`). -/
theorem matchTable_some {cs part cons rest : List Char}
    (h : matchTable cs = some (part, cons, rest)) :
    cs = cons ++ rest ∧ part ≠ [] ∧ (∀ c ∈ part, isC2 c = true) ∧ cons ≠ [] ∧
      (cons.getLast? = some ']' ∨ rest = [] ∨
        ∃ z r', rest = z :: r' ∧ isC2 z = false ∧ z ≠ ']') := by
  unfold matchTable at h
  rcases hO : optChar '[' cs with ⟨b1, cs1⟩
  rw [hO] at h
  dsimp only at h
  rcases hT : takeC isC2 cs1 with ⟨run, cs2⟩
  rw [hT] at h
  dsimp only at h
  by_cases he : run.isEmpty
  · simp [he] at h
  · simp only [he, if_false, Bool.false_eq_true] at h
    have hrun : run ≠ [] := by simpa [List.isEmpty_iff] using he
    have hall : ∀ c ∈ run, isC2 c = true := by
      have := takeC_fst_all isC2 cs1
      rw [hT] at this; exact this
    have e1 := optChar_spec '[' cs
    have e2 := takeC_spec isC2 cs1
    rw [hO] at e1; rw [hT] at e2
    match cs2, h with
    | [], h =>
      simp only [optChar] at h
      obtain ⟨rfl, rfl, rfl⟩ := h
      refine ⟨by simp [← e1, ← e2], hrun, hall, by simp [hrun], Or.inr (Or.inl rfl)⟩
    | z :: r', h =>
      by_cases hz : z = ']'
      · subst hz
        simp only [optChar, if_pos rfl] at h
        obtain ⟨rfl, rfl, rfl⟩ := h
        refine ⟨by simp [← e1, ← e2], hrun, hall, by simp, Or.inl ?_⟩
        rw [List.getLast?_append_of_ne_nil _ (by simp)]
        simp [List.getLast?_append_of_ne_nil]
      · simp only [optChar, if_neg hz] at h
        obtain ⟨rfl, rfl, rfl⟩ := h
        have hzc : isC2 z = false := takeC_snd_head isC2 cs1 (by rw [hT])
        exact ⟨by simp [← e1, ← e2], hrun, hall, by simp [hrun],
          Or.inr (Or.inr ⟨z, r', rfl, hzc, hz⟩)⟩

/-- What a successful chain parse guarantees. -/
theorem matchRef_some {cs : List Char} {g : RefGroups} {cons rest : List Char}
    (h : matchRef cs = some (g, cons, rest)) :
    cs = cons ++ rest ∧ cons ≠ [] ∧ PartsOk g ∧
      (cons.getLast? = some ']' ∨ rest = [] ∨
        ∃ z r', rest = z :: r' ∧ isC2 z = false ∧ z ≠ ']') := by
  unfold matchRef at h
  cases hA : matchQual cs with
  | none =>
    rw [hA] at h
    dsimp only at h
    cases hD : matchTable cs with
    | none => rw [hD] at h; exact absurd h (by simp)
    | some v =>
      obtain ⟨t, ct, rt⟩ := v
      rw [hD] at h
      dsimp only at h
      obtain ⟨rfl, rfl, rfl⟩ := by simpa using h
      obtain ⟨he, ht, hall, hcne, hdich⟩ := matchTable_some hD
      exact ⟨he, hcne, ⟨⟨ht, hall⟩, by simp, by simp⟩, hdich⟩
  | some vA =>
    obtain ⟨a, ca, ra⟩ := vA
    rw [hA] at h
    dsimp only at h
    obtain ⟨heA, haNe, haC1, hcaNe⟩ := matchQual_some hA
    cases hB : matchQual ra with
    | none =>
      rw [hB] at h
      dsimp only at h
      cases hD : matchTable ra with
      | some v =>
        obtain ⟨t, ct, rt⟩ := v
        rw [hD] at h
        dsimp only at h
        obtain ⟨rfl, rfl, rfl⟩ := by simpa using h
        obtain ⟨he, ht, hall, hcne, hdich⟩ := matchTable_some hD
        refine ⟨by rw [heA, he, List.append_assoc], by simp [hcaNe], ?_, ?_⟩
        · exact ⟨⟨ht, hall⟩, by rintro p hp; cases hp; exact ⟨haNe, haC1⟩, by simp⟩
        · rcases hdich with h1 | h1 | h1
          · exact Or.inl (by rw [List.getLast?_append_of_ne_nil _ hcne]; exact h1)
          · exact Or.inr (Or.inl h1)
          · exact Or.inr (Or.inr h1)
      | none =>
        rw [hD] at h
        dsimp only at h
        cases hD2 : matchTable cs with
        | none => rw [hD2] at h; exact absurd h (by simp)
        | some v =>
          obtain ⟨t, ct, rt⟩ := v
          rw [hD2] at h
          dsimp only at h
          obtain ⟨rfl, rfl, rfl⟩ := by simpa using h
          obtain ⟨he, ht, hall, hcne, hdich⟩ := matchTable_some hD2
          exact ⟨he, hcne, ⟨⟨ht, hall⟩, by simp, by simp⟩, hdich⟩
    | some vB =>
      obtain ⟨b, cb, rb⟩ := vB
      rw [hB] at h
      dsimp only at h
      obtain ⟨heB, hbNe, hbC1, hcbNe⟩ := matchQual_some hB
      cases hD : matchTable rb with
      | some v =>
        obtain ⟨t, ct, rt⟩ := v
        rw [hD] at h
        dsimp only at h
        obtain ⟨rfl, rfl, rfl⟩ := by simpa using h
        obtain ⟨he, ht, hall, hcne, hdich⟩ := matchTable_some hD
        refine ⟨by rw [heA, heB, he]; simp [List.append_assoc], by simp [hcaNe], ?_, ?_⟩
        · exact ⟨⟨ht, hall⟩, by rintro p hp; cases hp; exact ⟨haNe, haC1⟩,
            by rintro p hp; cases hp; exact ⟨hbNe, hbC1⟩⟩
        · rcases hdich with h1 | h1 | h1
          · refine Or.inl ?_
            rw [List.getLast?_append_of_ne_nil _ (by simp [hcne]),
              List.getLast?_append_of_ne_nil _ hcne]
            exact h1
          · exact Or.inr (Or.inl h1)
          · exact Or.inr (Or.inr h1)
      | none =>
        rw [hD] at h
        dsimp only at h
        cases hD1 : matchTable ra with
        | some v =>
          obtain ⟨t, ct, rt⟩ := v
          rw [hD1] at h
          dsimp only at h
          obtain ⟨rfl, rfl, rfl⟩ := by simpa using h
          obtain ⟨he, ht, hall, hcne, hdich⟩ := matchTable_some hD1
          refine ⟨by rw [heA, he, List.append_assoc], by simp [hcaNe], ?_, ?_⟩
          · exact ⟨⟨ht, hall⟩, by rintro p hp; cases hp; exact ⟨haNe, haC1⟩, by simp⟩
          · rcases hdich with h1 | h1 | h1
            · exact Or.inl (by rw [List.getLast?_append_of_ne_nil _ hcne]; exact h1)
            · exact Or.inr (Or.inl h1)
            · exact Or.inr (Or.inr h1)
        | none =>
          rw [hD1] at h
          dsimp only at h
          cases hD2 : matchTable cs with
          | none => rw [hD2] at h; exact absurd h (by simp)
          | some v =>
            obtain ⟨t, ct, rt⟩ := v
            rw [hD2] at h
            dsimp only at h
            obtain ⟨rfl, rfl, rfl⟩ := by simpa using h
            obtain ⟨he, ht, hall, hcne, hdich⟩ := matchTable_some hD2
            exact ⟨he, hcne, ⟨⟨ht, hall⟩, by simp, by simp⟩, hdich⟩

/-- What a successful full match guarantees. -/
theorem matchCore_some {cs cl ws : List Char} {g : RefGroups} {cons rest : List Char}
    (h : matchCore cs = some (cl, ws, g, cons, rest)) :
    cs = cl ++ ws ++ cons ++ rest ∧ kwHead4 cl = true ∧ ws ≠ [] ∧
      (∀ c ∈ ws, isWs c = true) ∧
      matchRef (cons ++ rest) = some (g, cons, rest) ∧ cons ≠ [] ∧ PartsOk g ∧
      (cons.getLast? = some ']' ∨ rest = [] ∨
        ∃ z r', rest = z :: r' ∧ isC2 z = false ∧ z ≠ ']') := by
  unfold matchCore at h
  cases hK : matchKw cs with
  | none => rw [hK] at h; exact absurd h (by simp)
  | some vK =>
    obtain ⟨cl', r1⟩ := vK
    rw [hK] at h
    dsimp only at h
    rcases hW : takeC isWs r1 with ⟨wrun, r2⟩
    rw [hW] at h
    dsimp only at h
    by_cases he : wrun.isEmpty
    · simp [he] at h
    · simp only [he, if_false, Bool.false_eq_true] at h
      cases hR : matchRef r2 with
      | none => rw [hR] at h; exact absurd h (by simp)
      | some vR =>
        obtain ⟨g', cons', rest'⟩ := vR
        rw [hR] at h
        obtain ⟨rfl, rfl, rfl, rfl, rfl⟩ := by simpa using h
        obtain ⟨hKe, hKh⟩ := matchKw_some hK
        obtain ⟨hRe, hRc, hRp, hRd⟩ := matchRef_some hR
        have hwAll : ∀ c ∈ wrun, isWs c = true := by
          have := takeC_fst_all isWs r1
          rw [hW] at this; exact this
        have hwNe : wrun ≠ [] := by simpa [List.isEmpty_iff] using he
        have e2 := takeC_spec isWs r1
        rw [hW] at e2
        refine ⟨?_, hKh, hwNe, hwAll, by rw [← hRe]; exact hR, hRc, hRp, hRd⟩
        rw [hKe, ← e2, hRe]
        simp

theorem kwHead4_len {cl : List Char} (h : kwHead4 cl = true) : cl.length = 4 := by
  obtain ⟨a, b, c, d, rfl⟩ := kwHead4_shape h
  rfl

theorem orig_nil : orig [] = [] := rfl

theorem orig_cons (s : Seg) (segs : List Seg) :
    orig (s :: segs) = origSeg s ++ orig segs := by
  simp [orig]

theorem render_nil (db : List Char) : render db [] = [] := rfl

theorem render_cons (db : List Char) (s : Seg) (segs : List Seg) :
    render db (s :: segs) = renderSeg db s ++ render db segs := by
  simp [render]

theorem matchCore_rest_lt {cs cl ws : List Char} {g : RefGroups} {cons rest : List Char}
    (h : matchCore cs = some (cl, ws, g, cons, rest)) :
    rest.length + 6 ≤ cs.length := by
  obtain ⟨he, hk, hws, _, _, hcons, _, _⟩ := matchCore_some h
  have h4 := kwHead4_len hk
  have hws1 : 1 ≤ ws.length := List.length_pos.mpr hws
  have hcons1 : 1 ≤ cons.length := List.length_pos.mpr hcons
  have : cs.length = cl.length + (ws.length + (cons.length + rest.length)) := by
    rw [he]; simp
  omega

theorem scanSegs_nil (fuel : Nat) (prev : Option Char) : scanSegs fuel prev [] = [] := by
  cases fuel <;> rfl

/-- The trace recovers the original text. -/
theorem orig_scan :
    ∀ fuel (prev : Option Char) (cs : List Char), cs.length ≤ fuel →
      orig (scanSegs fuel prev cs) = cs := by
  intro fuel
  induction fuel with
  | zero =>
    intro prev cs h
    have : cs = [] := List.length_eq_zero.mp (Nat.le_zero.mp h)
    subst this; rfl
  | succ fuel ih =>
    intro prev cs h
    cases cs with
    | nil => rfl
    | cons c cs' =>
      show orig (scanSegs (fuel + 1) prev (c :: cs')) = c :: cs'
      unfold scanSegs
      by_cases hb : boundaryOk prev = true
      · rw [if_pos hb]
        cases hm : matchCore (c :: cs') with
        | none =>
          rw [orig_cons]
          have := ih (some c) cs' (by simpa using h)
          simp [origSeg, this]
        | some v =>
          obtain ⟨cl, ws, g, cons, rest⟩ := v
          rw [orig_cons]
          have hlt := matchCore_rest_lt hm
          have hre := ih cons.getLast? rest
            (by simp only [List.length_cons] at h hlt ⊢; omega)
          obtain ⟨he, _⟩ := matchCore_some hm
          simp [origSeg, hre, he]
      · rw [if_neg hb]
        rw [orig_cons]
        have := ih (some c) cs' (by simpa using h)
        simp [origSeg, this]

/-- Scans of the substitution are well formed. -/
theorem scan_WF :
    ∀ fuel (prev : Option Char) (cs : List Char), cs.length ≤ fuel →
      WFs prev (scanSegs fuel prev cs) := by
  intro fuel
  induction fuel with
  | zero =>
    intro prev cs h
    have : cs = [] := List.length_eq_zero.mp (Nat.le_zero.mp h)
    subst this; exact WFs.nil
  | succ fuel ih =>
    intro prev cs h
    cases cs with
    | nil => exact WFs.nil
    | cons c cs' =>
      show WFs prev (scanSegs (fuel + 1) prev (c :: cs'))
      unfold scanSegs
      by_cases hb : boundaryOk prev = true
      · rw [if_pos hb]
        cases hm : matchCore (c :: cs') with
        | none =>
          refine WFs.copy (Or.inr ?_) (ih (some c) cs' (by simpa using h))
          rw [orig_scan fuel (some c) cs' (by simpa using h)]
          exact hm
        | some v =>
          obtain ⟨cl, ws, g, cons, rest⟩ := v
          have hlt := matchCore_rest_lt hm
          have hlen : rest.length ≤ fuel := by
            simp only [List.length_cons] at h hlt; omega
          refine WFs.rep hb ?_ (ih cons.getLast? rest hlen)
          rw [orig_scan fuel cons.getLast? rest hlen]
          obtain ⟨he, _⟩ := matchCore_some hm
          rw [← he]
          exact hm
      · rw [if_neg hb]
        refine WFs.copy (Or.inl (by simpa using hb)) (ih (some c) cs' (by simpa using h))

/-- Fuel irrelevance: any fuel at least the input length gives the same
trace. -/
theorem scanSegs_fuel :
    ∀ f1 f2 (prev : Option Char) (cs : List Char), cs.length ≤ f1 → cs.length ≤ f2 →
      scanSegs f1 prev cs = scanSegs f2 prev cs := by
  intro f1
  induction f1 with
  | zero =>
    intro f2 prev cs h1 h2
    have : cs = [] := List.length_eq_zero.mp (Nat.le_zero.mp h1)
    subst this
    rw [scanSegs_nil, scanSegs_nil]
  | succ f1 ih =>
    intro f2 prev cs h1 h2
    cases cs with
    | nil => rw [scanSegs_nil, scanSegs_nil]
    | cons c cs' =>
      cases f2 with
      | zero => simp at h2
      | succ f2 =>
        show scanSegs (f1 + 1) prev (c :: cs') = scanSegs (f2 + 1) prev (c :: cs')
        unfold scanSegs
        by_cases hb : boundaryOk prev = true
        · rw [if_pos hb, if_pos hb]
          cases hm : matchCore (c :: cs') with
          | none =>
            dsimp only
            rw [ih f2 (some c) cs' (by simpa using h1) (by simpa using h2)]
          | some v =>
            obtain ⟨cl, ws, g, cons, rest⟩ := v
            have hlt := matchCore_rest_lt hm
            dsimp only
            rw [ih f2 cons.getLast? rest
              (by simp only [List.length_cons] at h1 hlt; omega)
              (by simp only [List.length_cons] at h2 hlt; omega)]
        · rw [if_neg hb, if_neg hb,
            ih f2 (some c) cs' (by simpa using h1) (by simpa using h2)]

/-- `optChar` on text with a non-`ch` barrier glued on behaves as on the
text alone. -/
theorem optChar_barrier {w ch : Char} (hne : w ≠ ch) (a t : List Char) :
    optChar ch (a ++ w :: t) = ((optChar ch a).1, (optChar ch a).2 ++ w :: t) := by
  cases a with
  | nil => simp [optChar, hne]
  | cons x a' => by_cases hx : x = ch <;> simp [optChar, hx]

/-- A whitespace character stops every atom of the chain parsers exactly
like the end of input: parsing `a` followed by a whitespace barrier is
parsing `a` alone, with the barrier glued back onto the rest. -/
theorem matchQual_barrier {w : Char} (hw : isWs w = true) (a t : List Char) :
    matchQual (a ++ w :: t) =
      (matchQual a).map (fun v => (v.1, v.2.1, v.2.2 ++ w :: t)) := by
  obtain ⟨hw1, hw2, hw3, hwC1, _, _, _, _⟩ := ws_facts hw
  simp only [matchQual]
  rw [optChar_barrier hw1, takeC_append_stop hwC1, optChar_barrier hw2]
  by_cases he : (takeC isC1 (optChar '[' a).2).1.isEmpty
  · simp [he]
  · simp only [he, if_false, Bool.false_eq_true]
    rcases hY : (optChar ']' (takeC isC1 (optChar '[' a).2).2).2 with _ | ⟨u, Y'⟩
    · simp [hw3]
    · by_cases hu : u = '.'
      · subst hu; simp
      · simp [hu]

/-- The barrier law for the table atom. -/
theorem matchTable_barrier {w : Char} (hw : isWs w = true) (a t : List Char) :
    matchTable (a ++ w :: t) =
      (matchTable a).map (fun v => (v.1, v.2.1, v.2.2 ++ w :: t)) := by
  obtain ⟨hw1, hw2, _, _, hwC2, _, _, _⟩ := ws_facts hw
  simp only [matchTable]
  rw [optChar_barrier hw1, takeC_append_stop hwC2, optChar_barrier hw2]
  by_cases he : (takeC isC2 (optChar '[' a).2).1.isEmpty
  · simp [he]
  · simp [he]

/-- The barrier law for the full chain. -/
theorem matchRef_barrier {w : Char} (hw : isWs w = true) (a t : List Char) :
    matchRef (a ++ w :: t) =
      (matchRef a).map (fun v => (v.1, v.2.1, v.2.2 ++ w :: t)) := by
  unfold matchRef
  rw [matchQual_barrier hw]
  cases hA : matchQual a with
  | none =>
    rw [matchTable_barrier hw]
    cases hD : matchTable a with
    | none => rfl
    | some v => rfl
  | some vA =>
    obtain ⟨pa, ca, ra⟩ := vA
    dsimp only [Option.map]
    rw [matchQual_barrier hw]
    cases hB : matchQual ra with
    | none =>
      dsimp only [Option.map]
      rw [matchTable_barrier hw]
      cases hD : matchTable ra with
      | some v => rfl
      | none =>
        dsimp only [Option.map]
        rw [matchTable_barrier hw]
        cases hD2 : matchTable a with
        | none => rfl
        | some v => rfl
    | some vB =>
      obtain ⟨pb, cb, rb⟩ := vB
      dsimp only [Option.map]
      rw [matchTable_barrier hw]
      cases hD : matchTable rb with
      | some v => rfl
      | none =>
        dsimp only [Option.map]
        rw [matchTable_barrier hw]
        cases hD1 : matchTable ra with
        | some v => rfl
        | none =>
          dsimp only [Option.map]
          rw [matchTable_barrier hw]
          cases hD2 : matchTable a with
          | none => rfl
          | some v => rfl

theorem word_notWs {c : Char} (h : isWordChar c = true) : isWs c = false := by
  cases hw : isWs c
  · rfl
  · rcases isWs_cases hw with rfl | rfl | rfl | rfl | rfl | rfl <;> exact absurd h (by decide)

theorem word_C1 {c : Char} (h : isWordChar c = true) : isC1 c = true := by
  have h1 : c ≠ '[' := by rintro rfl; exact absurd h (by decide)
  have h2 : c ≠ ']' := by rintro rfl; exact absurd h (by decide)
  have h3 : c ≠ '.' := by rintro rfl; exact absurd h (by decide)
  have h4 : c ≠ ',' := by rintro rfl; exact absurd h (by decide)
  have h5 : c ≠ ')' := by rintro rfl; exact absurd h (by decide)
  simp [isC1, word_notWs h, h1, h2, h3, h4, h5]

theorem word_C2 {c : Char} (h : isWordChar c = true) : isC2 c = true := by
  have h6 : c ≠ ';' := by rintro rfl; exact absurd h (by decide)
  simp [isC2, word_C1 h, h6]

theorem word_notBad {c : Char} (h : isWordChar c = true) :
    (isWs c || c = ',' || c = '(' || c = ')') = false := by
  have h4 : c ≠ ',' := by rintro rfl; exact absurd h (by decide)
  have h5 : c ≠ ')' := by rintro rfl; exact absurd h (by decide)
  have h6 : c ≠ '(' := by rintro rfl; exact absurd h (by decide)
  simp [word_notWs h, h4, h5, h6]

theorem kwFirst_C2 {c : Char} (h : kwFirst c = true) : isC2 c = true := by
  rcases by simpa [kwFirst, chIs, or_assoc] using h with rfl | rfl | rfl | rfl <;> decide

theorem matchKw_none_of_first {c : Char} (h : kwFirst c = false) (xs : List Char) :
    matchKw (c :: xs) = none := by
  match xs with
  | [] => rfl
  | [_] => rfl
  | [_, _] => rfl
  | x2 :: x3 :: x4 :: r =>
    simp only [matchKw]
    by_cases hk : kwHead4 [c, x2, x3, x4] = true
    · exact absurd (kwHead4_first hk) (by simp [h])
    · simp [hk]

theorem matchCore_none_of_kw {cs : List Char} (h : matchKw cs = none) :
    matchCore cs = none := by
  unfold matchCore
  rw [h]

/-- If a class run stops strictly inside `y`, appending anything after `y`
does not change it. -/
theorem takeC_append_inside {p : Char → Bool} {y : List Char}
    (h : (takeC p y).2 ≠ []) (z : List Char) :
    takeC p (y ++ z) = ((takeC p y).1, (takeC p y).2 ++ z) := by
  induction y with
  | nil => exact absurd rfl h
  | cons c y' ih =>
    by_cases hc : p c = true
    · have h' : (takeC p y').2 ≠ [] := by
        simpa [takeC, hc] using h
      simp [takeC, hc, ih h']
    · simp [takeC, hc]

/-- A list with a member failing `p` leaves a non-empty tail after the
run. -/
theorem takeC_snd_ne {p : Char → Bool} {y : List Char} {c : Char}
    (hc : c ∈ y) (hp : p c = false) : (takeC p y).2 ≠ [] := by
  intro h
  have hall := takeC_fst_all p y
  have hspec := takeC_spec p y
  rw [h, List.append_nil] at hspec
  rw [hspec] at hall
  rw [hall c hc] at hp
  exact absurd hp (by simp)

theorem getLast?_some_mem {α : Type} {l : List α} {a : α}
    (h : l.getLast? = some a) : a ∈ l := by
  obtain ⟨hh, rfl⟩ := List.mem_getLast?_eq_getLast (show a ∈ l.getLast? by simpa using h)
  exact List.getLast_mem hh

/-- The keyword test on a list with at least four characters only reads
those four. -/
theorem matchKw_long {X : List Char} (h : 4 ≤ X.length) (Z : List Char) :
    matchKw (X ++ Z) = (matchKw X).map (fun v => (v.1, v.2 ++ Z)) := by
  match X, h with
  | x1 :: x2 :: x3 :: x4 :: X', _ =>
    by_cases hk : kwHead4 [x1, x2, x3, x4] = true <;>
      simp [matchKw, hk]

/-- Failure of the full match attempt is insensitive to everything behind
the first whitespace barrier that follows a possible keyword, provided at
least one character precedes the keyword text: the keyword test reads only
the common part, the whitespace run stops inside it (the four keyword
letters are not whitespace), and the chain parse stops at the barrier. -/
theorem matchCore_none_transfer (a0 cl : List Char) (w1 w2 : Char) (t1 t2 : List Char)
    (ha0 : a0 ≠ []) (hcl : kwHead4 cl = true) (hw1 : isWs w1 = true)
    (hw2 : isWs w2 = true)
    (h : matchCore (a0 ++ cl ++ w1 :: t1) = none) :
    matchCore (a0 ++ cl ++ w2 :: t2) = none := by
  obtain ⟨k1, k2, k3, k4, rfl⟩ := kwHead4_shape hcl
  have hX4 : 4 ≤ (a0 ++ [k1, k2, k3, k4]).length := by simp
  have hXlen : 5 ≤ (a0 ++ [k1, k2, k3, k4]).length := by
    have := List.length_pos.mpr ha0
    simp; omega
  have hshape1 : a0 ++ [k1, k2, k3, k4] ++ w1 :: t1 =
      (a0 ++ [k1, k2, k3, k4]) ++ w1 :: t1 := by simp
  have hshape2 : a0 ++ [k1, k2, k3, k4] ++ w2 :: t2 =
      (a0 ++ [k1, k2, k3, k4]) ++ w2 :: t2 := by simp
  rw [hshape1] at h
  rw [hshape2]
  set X := a0 ++ [k1, k2, k3, k4] with hXdef
  unfold matchCore at h ⊢
  rw [matchKw_long hX4] at h ⊢
  cases hK : matchKw X with
  | none => simp
  | some vK =>
    obtain ⟨cl4, r1⟩ := vK
    rw [hK] at h
    simp only [Option.map] at h ⊢
    obtain ⟨hXe, hcl4⟩ := matchKw_some hK
    have hr1ne : r1 ≠ [] := by
      intro hr
      rw [hr, List.append_nil] at hXe
      rw [hXe, kwHead4_len hcl4] at hXlen
      omega
    have hlastX : X.getLast? = some k4 := by
      rw [hXdef, List.getLast?_append_of_ne_nil _ (by simp)]
      rfl
    have hlastr1 : r1.getLast? = some k4 := by
      rw [hXe, List.getLast?_append_of_ne_nil _ hr1ne] at hlastX
      exact hlastX
    have hk4mem : k4 ∈ r1 := getLast?_some_mem hlastr1
    have hk4ws : isWs k4 = false := (kwHead4_chars hcl k4 (by simp)).2
    have hstop : (takeC isWs r1).2 ≠ [] := takeC_snd_ne hk4mem hk4ws
    rw [takeC_append_inside hstop] at h
    rw [takeC_append_inside hstop]
    dsimp only at h ⊢
    by_cases he : (takeC isWs r1).1.isEmpty
    · simp [he]
    · simp only [he, if_false, Bool.false_eq_true] at h ⊢
      rw [matchRef_barrier hw1] at h
      rw [matchRef_barrier hw2]
      cases hMR : matchRef (takeC isWs r1).2 with
      | none => simp
      | some v =>
        rw [hMR] at h
        obtain ⟨g, cons, rest⟩ := v
        simp at h

/-- Every branch of the replacement is the clause followed by a bracketed
three-part rewrite, and the schema slot always carries the invariants the
branch conditions checked (or `dbo`, which satisfies them outright). -/
theorem replaceRef_shape (db cl : List Char) {g : RefGroups} (hp : PartsOk g) :
    ∃ X, replaceRef db cl g = cl ++ mkRef db X g.table ∧
      X ≠ [] ∧ (∀ c ∈ X, isC1 c = true) ∧ containsToken X = false ∧
      partInvalid X = false := by
  unfold replaceRef
  by_cases hc : (tokCheck g.first || tokCheck g.second ||
      (invCheck g.first || invCheck g.second)) = true
  · rw [if_pos hc]
    exact ⟨"dbo".data, rfl, by decide, by decide, by decide, by decide⟩
  · rw [if_neg hc]
    simp only [Bool.or_eq_true, not_or] at hc
    obtain ⟨⟨hc1, hc2⟩, hc3, hc4⟩ := hc
    rcases hf : g.first with _ | a <;> rcases hs : g.second with _ | b
    · exact ⟨"dbo".data, rfl, by decide, by decide, by decide, by decide⟩
    · obtain ⟨hbne, hbC1⟩ := hp.2.2 b hs
      rw [hs] at hc2 hc4
      simp only [tokCheck, invCheck, Bool.and_eq_true, not_and,
        Bool.not_eq_true] at hc2 hc4
      refine ⟨b, rfl, hbne, hbC1, ?_, ?_⟩
      · simpa [List.isEmpty_iff, hbne] using hc2
      · simpa [List.isEmpty_iff, hbne] using hc4
    · exact ⟨"dbo".data, rfl, by decide, by decide, by decide, by decide⟩
    · obtain ⟨hbne, hbC1⟩ := hp.2.2 b hs
      rw [hs] at hc2 hc4
      simp only [tokCheck, invCheck, Bool.and_eq_true, not_and,
        Bool.not_eq_true] at hc2 hc4
      refine ⟨b, rfl, hbne, hbC1, ?_, ?_⟩
      · simpa [List.isEmpty_iff, hbne] using hc2
      · simpa [List.isEmpty_iff, hbne] using hc4

/-- When the first part is the database name and the second a schema that
passes both checks, the replacement reproduces the rewrite verbatim. -/
theorem replaceRef_again {db cl X Y : List Char}
    (hdbT : containsToken db = false) (hdbI : partInvalid db = false)
    (hXT : containsToken X = false) (hXI : partInvalid X = false) :
    replaceRef db cl ⟨some db, some X, Y⟩ = cl ++ mkRef db X Y := by
  unfold replaceRef
  simp [tokCheck, invCheck, hdbT, hdbI, hXT, hXI]

/-- A plain-identifier database name passes the validity check. -/
theorem dbIdent_invalid {db : List Char} (h : DbIdent db) : partInvalid db = false := by
  obtain ⟨_, hlen, hword, _⟩ := h
  unfold partInvalid
  have h1 : db.any (fun c => isWs c || c = ',' || c = '(' || c = ')') = false := by
    rw [List.any_eq_false]
    intro c hc
    simpa using word_notBad (hword c hc)
  rw [h1]
  simpa using by omega

theorem refChain_concat (db X Y : List Char) :
    refChain db X Y =
      ('[' :: db ++ ']' :: '.' :: '[' :: X ++ ']' :: '.' :: '[' :: Y) ++ [']'] := by
  simp [refChain]

theorem refChain_getLast (db X Y : List Char) :
    (refChain db X Y).getLast? = some ']' := by
  rw [refChain_concat, List.getLast?_append_of_ne_nil _ (by simp)]
  rfl

/-- Parsing one rewritten qualifier `[p].`. -/
theorem matchQual_chain {p : List Char} (hne : p ≠ []) (hC1 : ∀ c ∈ p, isC1 c = true)
    (rest : List Char) :
    matchQual ('[' :: p ++ ']' :: '.' :: rest) =
      some (p, '[' :: p ++ [']', '.'], rest) := by
  simp only [matchQual, List.cons_append]
  rw [optChar_pos]
  dsimp only
  rw [takeC_append_stop (by decide : isC1 ']' = false), takeC_of_all hC1]
  dsimp only
  simp [List.isEmpty_iff, hne, optChar]

/-- Parsing one rewritten table atom `[Y]`. -/
theorem matchTable_chain {Y : List Char} (hne : Y ≠ []) (hC2 : ∀ c ∈ Y, isC2 c = true)
    (R : List Char) :
    matchTable ('[' :: Y ++ ']' :: R) = some (Y, '[' :: Y ++ [']'], R) := by
  simp only [matchTable, List.cons_append]
  rw [optChar_pos]
  dsimp only
  rw [takeC_append_stop (by decide : isC2 ']' = false), takeC_of_all hC2]
  dsimp only
  simp [List.isEmpty_iff, hne, optChar]

/-- The chain parse re-reads a rewritten reference `[db].[X].[Y]` as its
three parts, leaving anything after the closing bracket untouched. -/
theorem matchRef_chain {db X Y : List Char}
    (hdb : db ≠ []) (hdbC : ∀ c ∈ db, isC1 c = true)
    (hX : X ≠ []) (hXC : ∀ c ∈ X, isC1 c = true)
    (hY : Y ≠ []) (hYC : ∀ c ∈ Y, isC2 c = true) (R : List Char) :
    matchRef (refChain db X Y ++ R) =
      some (⟨some db, some X, Y⟩, refChain db X Y, R) := by
  have e1 : refChain db X Y ++ R =
      '[' :: db ++ ']' :: '.' :: ('[' :: X ++ ']' :: '.' :: ('[' :: Y ++ ']' :: R)) := by
    simp [refChain]
  rw [e1]
  unfold matchRef
  rw [matchQual_chain hdb hdbC]
  dsimp only
  rw [matchQual_chain hX hXC]
  dsimp only
  rw [matchTable_chain hY hYC]
  dsimp only
  congr 1
  simp [refChain]

/-- The full match re-reads a rewritten reference (clause, one space,
bracketed three-part name) as itself. -/
theorem core_selfmatch {cl db X Y : List Char} (hcl : kwHead4 cl = true)
    (hdb : db ≠ []) (hdbC : ∀ c ∈ db, isC1 c = true)
    (hX : X ≠ []) (hXC : ∀ c ∈ X, isC1 c = true)
    (hY : Y ≠ []) (hYC : ∀ c ∈ Y, isC2 c = true) (R : List Char) :
    matchCore (cl ++ mkRef db X Y ++ R) =
      some (cl, [' '], ⟨some db, some X, Y⟩, refChain db X Y, R) := by
  obtain ⟨k1, k2, k3, k4, rfl⟩ := kwHead4_shape hcl
  have e1 : [k1, k2, k3, k4] ++ mkRef db X Y ++ R =
      k1 :: k2 :: k3 :: k4 :: (' ' :: (refChain db X Y ++ R)) := by
    simp [mkRef]
  rw [e1]
  unfold matchCore
  rw [matchKw_of_head hcl]
  dsimp only
  have e2 : takeC isWs (' ' :: (refChain db X Y ++ R)) =
      ([' '], refChain db X Y ++ R) := by
    have e3 : refChain db X Y ++ R = '[' :: (db ++ ']' :: '.' :: '[' ::
        X ++ ']' :: '.' :: '[' :: Y ++ ']' :: R) := by simp [refChain]
    rw [e3]
    simp [takeC, (by decide : isWs ' ' = true), (by decide : isWs '[' = false)]
  rw [e2]
  dsimp only
  rw [matchRef_chain hdb hdbC hX hXC hY hYC]
  simp

/-- A well-formed trace renders either to its own original text (no
rewrite happened) or to the original up to the first rewrite, whose clause
is kept verbatim and whose whitespace run collapses to one space. -/
theorem segs_decomp (db : List Char) :
    ∀ segs, (∀ prev, WFs prev segs →
      render db segs = orig segs ∨
      ∃ a cl w tail rtail, orig segs = a ++ cl ++ w :: tail ∧
        render db segs = a ++ cl ++ ' ' :: rtail ∧
        kwHead4 cl = true ∧ isWs w = true) := by
  intro segs
  induction segs with
  | nil => exact fun _ _ => Or.inl rfl
  | cons s rest ih =>
    intro prev h
    cases h with
    | copy hc hwf =>
      rename_i c
      rcases ih _ hwf with heq | ⟨a, cl, w, tail, rtail, ho, hr, hk, hw⟩
      · left
        rw [render_cons, orig_cons, heq]
        simp [renderSeg, origSeg]
      · right
        refine ⟨c :: a, cl, w, tail, rtail, ?_, ?_, hk, hw⟩
        · rw [orig_cons, ho]; simp [origSeg]
        · rw [render_cons, hr]; simp [renderSeg]
    | rep hb hm hwf =>
      rename_i cl ws g cons
      obtain ⟨he, hk, hwne, hwall, hmr, hconsne, hparts, hdich⟩ := matchCore_some hm
      obtain ⟨X, hshape, _⟩ := replaceRef_shape db cl hparts
      obtain ⟨w0, ws', rfl⟩ := List.exists_cons_of_ne_nil hwne
      right
      refine ⟨[], cl, w0, ws' ++ cons ++ orig rest,
        refChain db X g.table ++ render db rest, ?_, ?_, hk, hwall w0 (by simp)⟩
      · rw [orig_cons]; simp [origSeg]
      · rw [render_cons]
        simp [renderSeg, hshape, mkRef]

/-- The central idempotence argument: rescanning the rendered text of a
well-formed trace reproduces it.  Rewritten references re-match and map to
themselves (the database name being a clean identifier), and positions the
first pass left alone still fail to match. -/
theorem pass2_render {db : List Char} (hdb : DbIdent db) :
    ∀ segs prev p2 fuel, WFs prev segs → PrevRel prev p2 (orig segs) →
      (render db segs).length ≤ fuel →
      render db (scanSegs fuel p2 (render db segs)) = render db segs := by
  obtain ⟨hdbNe, hdbLen, hdbW, hdbT⟩ := hdb
  have hdbC1 : ∀ c ∈ db, isC1 c = true := fun c hc => word_C1 (hdbW c hc)
  have hdbI : partInvalid db = false := dbIdent_invalid ⟨hdbNe, hdbLen, hdbW, hdbT⟩
  intro segs
  induction segs with
  | nil =>
    intro prev p2 fuel _ _ _
    rw [render_nil, scanSegs_nil, render_nil]
  | cons s rest ih =>
    intro prev p2 fuel hwfs hrel hfuel
    cases hwfs with
    | copy hc hwf =>
      rename_i c
      rw [render_cons] at hfuel ⊢
      simp only [renderSeg] at hfuel ⊢
      obtain ⟨f, rfl⟩ : ∃ f, fuel = f + 1 := by
        cases fuel
        · simp at hfuel
        · exact ⟨_, rfl⟩
      have hfuel' : (render db rest).length ≤ f := by
        simp at hfuel; omega
      have hrel' : PrevRel (some c) (some c) (orig rest) := Or.inl rfl
      have hnone2 : boundaryOk p2 = true → matchCore (c :: render db rest) = none := by
        intro hbp2
        have hnone1 : matchCore (c :: orig rest) = none := by
          rcases hrel with rfl | ⟨_, hhd⟩
          · rcases hc with hcb | hcn
            · rw [hbp2] at hcb; cases hcb
            · exact hcn
          · have hfst : kwFirst c = false := by
              apply hhd
              rw [orig_cons]
              simp [origSeg]
            exact matchCore_none_of_kw (matchKw_none_of_first hfst _)
        rcases hrel with rfl | ⟨_, hhd⟩
        · rcases segs_decomp db rest _ hwf with heq | ⟨a, cl, w, tail, rtail, ho, hr, hkcl, hw⟩
          · rw [heq]; exact hnone1
          · rw [hr]
            have h1 : matchCore ((c :: a) ++ cl ++ w :: tail) = none := by
              rw [show (c :: a) ++ cl ++ w :: tail = c :: (a ++ cl ++ w :: tail) by simp,
                ← ho]
              exact hnone1
            have h2 := matchCore_none_transfer (c :: a) cl w ' ' tail rtail
              (by simp) hkcl hw (by decide : isWs ' ' = true) h1
            rw [show (c :: a) ++ cl ++ ' ' :: rtail = c :: (a ++ cl ++ ' ' :: rtail) by simp] at h2
            rw [show c :: (a ++ cl ++ ' ' :: rtail) = c :: (a ++ (cl ++ ' ' :: rtail)) by simp] at h2
            simpa using h2
        · have hfst : kwFirst c = false := by
            apply hhd
            rw [orig_cons]
            simp [origSeg]
          exact matchCore_none_of_kw (matchKw_none_of_first hfst _)
      show render db (scanSegs (f + 1) p2 (c :: render db rest)) = c :: render db rest
      unfold scanSegs
      by_cases hbp2 : boundaryOk p2 = true
      · rw [if_pos hbp2, hnone2 hbp2]
        rw [render_cons]
        simp only [renderSeg]
        rw [ih (some c) (some c) f hwf hrel' hfuel']
        simp
      · rw [if_neg hbp2]
        rw [render_cons]
        simp only [renderSeg]
        rw [ih (some c) (some c) f hwf hrel' hfuel']
        simp
    | rep hb hm hwf =>
      rename_i cl ws g cons
      obtain ⟨he, hk, hwne, hwall, hmr, hconsne, hparts, hdich⟩ := matchCore_some hm
      obtain ⟨X, hshape, hXne, hXC1, hXT, hXI⟩ := replaceRef_shape db cl hparts
      obtain ⟨hYne, hYC2⟩ := hparts.1
      have hp2 : p2 = prev := by
        rcases hrel with rfl | ⟨_, hhd⟩
        · rfl
        · exfalso
          obtain ⟨k1, k2, k3, k4, rfl⟩ := kwHead4_shape hk
          have := hhd k1 (by rw [orig_cons]; simp [origSeg])
          rw [kwHead4_first hk] at this
          cases this
      subst hp2
      rw [render_cons]
      simp only [renderSeg]
      rw [hshape]
      have hval : matchCore ((cl ++ mkRef db X g.table) ++ render db rest) =
          some (cl, [' '], ⟨some db, some X, g.table⟩,
            refChain db X g.table, render db rest) :=
        core_selfmatch hk hdbNe hdbC1 hXne hXC1 hYne hYC2 (render db rest)
      obtain ⟨k1, k2, k3, k4, rfl⟩ := kwHead4_shape hk
      have hlist : ([k1, k2, k3, k4] ++ mkRef db X g.table) ++ render db rest =
          k1 :: (k2 :: k3 :: k4 :: ' ' :: (refChain db X g.table ++ render db rest)) := by
        simp [mkRef]
      rw [hlist] at hval ⊢
      obtain ⟨f, rfl⟩ : ∃ f, fuel = f + 1 := by
        cases fuel with
        | zero =>
          exfalso
          rw [render_cons] at hfuel
          simp only [renderSeg] at hfuel
          rw [hshape] at hfuel
          simp [mkRef] at hfuel
        | succ f => exact ⟨f, rfl⟩
      show render db (scanSegs (f + 1) p2 (k1 :: (k2 :: k3 :: k4 :: ' ' ::
        (refChain db X g.table ++ render db rest)))) = _
      unfold scanSegs
      rw [if_pos hb, hval]
      rw [render_cons]
      simp only [renderSeg]
      rw [replaceRef_again hdbT hdbI hXT hXI]
      have hrel2 : PrevRel cons.getLast? (refChain db X g.table).getLast? (orig rest) := by
        rw [refChain_getLast]
        rcases hdich with h1 | h1 | h1
        · exact Or.inl (by rw [h1])
        · exact Or.inr ⟨by decide, by rw [h1]; intro z hz; cases hz⟩
        · obtain ⟨z, r', hzr, hzc, hzb⟩ := h1
          refine Or.inr ⟨by decide, ?_⟩
          intro u hu
          rw [hzr] at hu
          simp at hu
          subst hu
          cases hf : kwFirst z
          · rfl
          · rw [kwFirst_C2 hf] at hzc; cases hzc
      have hflen : (render db rest).length ≤ f := by
        rw [render_cons] at hfuel
        simp only [renderSeg] at hfuel
        rw [hshape, hlist] at hfuel
        simp at hfuel
        omega
      rw [ih cons.getLast? (refChain db X g.table).getLast? f hwf hrel2 hflen]
      exact hlist

/-! ## Glue lemmas for the claim statements -/

/-- Strings with the same character data are equal. -/
theorem strExt {s t : String} (h : s.data = t.data) : s = t := by
  cases s
  cases t
  exact congrArg String.mk h

theorem isEmpty_false_of_ne {l : List Char} (h : l ≠ []) : l.isEmpty = false := by
  cases l with
  | nil => exact absurd rfl h
  | cons a t => rfl

theorem render_append (db : List Char) (s t : List Seg) :
    render db (s ++ t) = render db s ++ render db t := by
  simp [render]

theorem render_copies (db : List Char) : ∀ cs : List Char,
    render db (cs.map Seg.copy) = cs := by
  intro cs
  induction cs with
  | nil => rfl
  | cons c t ih =>
    show render db (Seg.copy c :: t.map Seg.copy) = c :: t
    rw [render_cons, ih]
    rfl

theorem kwFree_cons {c : Char} {cs : List Char} (h : kwFree (c :: cs) = true) :
    matchKw (c :: cs) = none ∧ kwFree cs = true := by
  unfold kwFree at h
  rw [Bool.and_eq_true] at h
  obtain ⟨h1, h2⟩ := h
  refine ⟨?_, h2⟩
  cases hm : matchKw (c :: cs) with
  | none => rfl
  | some v => rw [hm] at h1; simp at h1

/-- On keyword-free text the `llm_integration.py` scan copies every
character. -/
theorem scan_id_llm : ∀ (fuel : Nat) (prev : Option Char) (cs : List Char),
    kwFree cs = true → scanSegs fuel prev cs = cs.map Seg.copy := by
  intro fuel
  induction fuel with
  | zero => intro prev cs h; rfl
  | succ f ih =>
    intro prev cs h
    cases cs with
    | nil => rfl
    | cons c cs' =>
      obtain ⟨hm, hk⟩ := kwFree_cons h
      show scanSegs (f + 1) prev (c :: cs') = _
      unfold scanSegs
      by_cases hb : boundaryOk prev = true
      · rw [if_pos hb, matchCore_none_of_kw hm]
        dsimp only
        rw [ih (some c) cs' hk]
        rfl
      · rw [if_neg hb, ih (some c) cs' hk]
        rfl

theorem matchCoreAPI_none_of_kw {cs : List Char} (h : matchKw cs = none) :
    matchCoreAPI cs = none := by
  unfold matchCoreAPI
  rw [h]

theorem matchCoreQG_none_of_kw {cs : List Char} (h : matchKw cs = none) :
    matchCoreQG cs = none := by
  unfold matchCoreQG
  rw [h]

/-- On keyword-free text the `api_routes.py` scan is the identity. -/
theorem scanAPI_id (db : List Char) : ∀ (fuel : Nat) (prev : Option Char) (cs : List Char),
    kwFree cs = true → scanAPI db fuel prev cs = cs := by
  intro fuel
  induction fuel with
  | zero => intro prev cs h; rfl
  | succ f ih =>
    intro prev cs h
    cases cs with
    | nil => rfl
    | cons c cs' =>
      obtain ⟨hm, hk⟩ := kwFree_cons h
      show scanAPI db (f + 1) prev (c :: cs') = _
      unfold scanAPI
      by_cases hb : boundaryOk prev = true
      · rw [if_pos hb, matchCoreAPI_none_of_kw hm]
        dsimp only
        rw [ih (some c) cs' hk]
      · rw [if_neg hb, ih (some c) cs' hk]

/-- On keyword-free text the `query_generation.py` scan is the identity. -/
theorem scanQG_id (db : List Char) : ∀ (fuel : Nat) (prev : Option Char) (cs : List Char),
    kwFree cs = true → scanQG db fuel prev cs = cs := by
  intro fuel
  induction fuel with
  | zero => intro prev cs h; rfl
  | succ f ih =>
    intro prev cs h
    cases cs with
    | nil => rfl
    | cons c cs' =>
      obtain ⟨hm, hk⟩ := kwFree_cons h
      show scanQG db (f + 1) prev (c :: cs') = _
      unfold scanQG
      by_cases hb : boundaryOk prev = true
      · rw [if_pos hb, matchCoreQG_none_of_kw hm]
        dsimp only
        rw [ih (some c) cs' hk]
      · rw [if_neg hb, ih (some c) cs' hk]

/-- Past its guards, `fmtLLM` is render-after-scan. -/
theorem fmtLLM_render (q db : String) (hq : q.data ≠ []) (hdb : db.data ≠ []) :
    fmtLLM q db = ⟨render db.data (scanSegs q.data.length none q.data)⟩ := by
  unfold fmtLLM
  rw [isEmpty_false_of_ne hq, isEmpty_false_of_ne hdb]
  simp

/-- The `api_routes.py` normalizer maps an empty query to itself. -/
theorem fmtAPI_nil (q db : String) (hq : q.data = []) : fmtAPI q db = q := by
  unfold fmtAPI
  by_cases hdb : db.data.isEmpty = true
  · rw [if_pos hdb]
  · rw [if_neg hdb, hq]
    exact strExt hq.symm

/-- Every rewrite segment of a well-formed trace carries the regex's group
invariants and a four-character keyword clause. -/
theorem WFs_mem_rep {prev : Option Char} {segs : List Seg} (h : WFs prev segs) :
    ∀ {cl ws : List Char} {g : RefGroups} {cons : List Char},
      Seg.rep cl ws g cons ∈ segs → PartsOk g ∧ kwHead4 cl = true := by
  induction h with
  | nil => intro cl ws g cons hm; cases hm
  | copy hc hwf ih =>
    intro cl ws g cons hm
    rcases List.mem_cons.mp hm with heq | hmem
    · exact Seg.noConfusion heq
    · exact ih hmem
  | rep hb hmc hwf ih =>
    intro cl ws g cons hm
    rcases List.mem_cons.mp hm with heq | hmem
    · cases heq
      obtain ⟨_, hk, _, _, _, _, hparts, _⟩ := matchCore_some hmc
      exact ⟨hparts, hk⟩
    · exact ih hmem

/-- A type token in either captured qualifier forces the `dbo` rewrite. -/
theorem replaceRef_tok (db cl : List Char) (g : RefGroups)
    (h : (tokCheck g.first || tokCheck g.second) = true) :
    replaceRef db cl g = cl ++ mkRef db "dbo".data g.table := by
  simp [replaceRef, h]

/-- An always-failing executor drives the retry loop through all its
budget, extending the log by one entry per refinement. -/
theorem retry_allFail (exec : String → Option String) (refine : String → String → String)
    (hf : ∀ s, exec s ≠ none) :
    ∀ (n : Nat) (q e : String) (log : List QueryRefinementAttempt),
      ∃ e2 log2, retryOrchestration exec refine n q e log = .failed e2 log2 ∧
        log2.length = log.length + n := by
  intro n
  induction n with
  | zero => intro q e log; exact ⟨e, log, rfl, rfl⟩
  | succ n ih =>
    intro q e log
    cases hx : exec (refine q e) with
    | none => exact absurd hx (hf _)
    | some e2 =>
      obtain ⟨e3, log3, heq, hlen⟩ :=
        ih (refine q e) e2 (log ++ [⟨MAX_RETRIES - n, refine q e, some e2⟩])
      refine ⟨e3, log3, ?_, ?_⟩
      · show retryOrchestration exec refine (n + 1) q e log = _
        unfold retryOrchestration
        dsimp only
        rw [hx]
        exact heq
      · rw [hlen]
        simp [List.length_append]
        omega

/-- The log never grows by more than the remaining budget. -/
theorem retry_logBound (exec : String → Option String) (refine : String → String → String) :
    ∀ (n : Nat) (q e : String) (log : List QueryRefinementAttempt),
      (logOf (retryOrchestration exec refine n q e log)).length ≤ log.length + n := by
  intro n
  induction n with
  | zero => intro q e log; simp [retryOrchestration, logOf]
  | succ n ih =>
    intro q e log
    cases hx : exec (refine q e) with
    | none =>
      show (logOf (retryOrchestration exec refine (n + 1) q e log)).length ≤ _
      unfold retryOrchestration
      dsimp only
      rw [hx]
      simp [logOf]
    | some e2 =>
      show (logOf (retryOrchestration exec refine (n + 1) q e log)).length ≤ _
      unfold retryOrchestration
      dsimp only
      rw [hx]
      dsimp only
      have h2 := ih (refine q e) e2 (log ++ [⟨MAX_RETRIES - n, refine q e, some e2⟩])
      simp only [List.length_append, List.length_cons, List.length_nil] at h2
      omega

/-! ## The claims -/

/-- C1: the spec claims `normalize(normalize(q, db), db) = normalize(q, db)`
for every query and database name.  The code refutes this (see the
counterexample: `llm_integration.py` demotes the schema to `dbo` on the
second pass when the database name contains a type token, and
`api_routes.py` re-rewrites its own output even for clean names).  Amended
property, proved here: the `llm_integration.py` normalizer is idempotent
whenever the database name is a plain identifier — non-empty, at most 128
word characters, containing no SQL type token. -/
theorem c1_llm_normalizer_idempotent_on_identifier_db (q db : String)
    (h : DbIdent db.data) :
    fmtLLM (fmtLLM q db) db = fmtLLM q db := by
  have hdbe : db.data.isEmpty = false := by
    cases hdb : db.data with
    | nil => exact absurd hdb h.1
    | cons a l => rfl
  by_cases hq : q.data.isEmpty = true
  · have h1 : fmtLLM q db = q := by
      unfold fmtLLM
      rw [hq]
      simp
    rw [h1, h1]
  · have hq' : q.data.isEmpty = false := by simpa using hq
    have h1 : fmtLLM q db = ⟨render db.data (scanSegs q.data.length none q.data)⟩ := by
      unfold fmtLLM
      rw [hq', hdbe]
      simp
    rw [h1]
    unfold fmtLLM
    rw [show ((⟨render db.data (scanSegs q.data.length none q.data)⟩ : String)).data
        = render db.data (scanSegs q.data.length none q.data) from rfl]
    rw [hdbe]
    by_cases hre : (render db.data (scanSegs q.data.length none q.data)).isEmpty = true
    · rw [hre]
      simp
    · have hre' : (render db.data (scanSegs q.data.length none q.data)).isEmpty = false := by
        simpa using hre
      rw [hre']
      simp only [Bool.or_self]
      rw [if_neg (by simp)]
      exact congrArg String.mk
        (pass2_render h (scanSegs q.data.length none q.data) none none _
          (scan_WF q.data.length none q.data (le_refl _)) (Or.inl rfl) (le_refl _))

/-- Witness for C1 at a concrete clean database name. -/
theorem c1_idempotence_witness :
    DbIdent "Sales".data ∧
      fmtLLM (fmtLLM "SELECT * FROM a.b.c" "Sales") "Sales" =
        fmtLLM "SELECT * FROM a.b.c" "Sales" :=
  ⟨by decide, c1_llm_normalizer_idempotent_on_identifier_db "SELECT * FROM a.b.c" "Sales"
    (by decide)⟩

/-- The unrestricted idempotence claim fails on both live normalizers: a
type-token database name flips the schema on the second `llm_integration.py`
pass, and the `api_routes.py` version rewrites its own output again. -/
theorem c1_idempotence_counterexample :
    fmtLLM "FROM x.y.z" "int" = "FROM [int].[y].[z]" ∧
    fmtLLM (fmtLLM "FROM x.y.z" "int") "int" = "FROM [int].[dbo].[z]" ∧
    fmtLLM (fmtLLM "FROM x.y.z" "int") "int" ≠ fmtLLM "FROM x.y.z" "int" ∧
    fmtAPI "FROM t" "my db" = "FROM [my db].[dbo].[t]" ∧
    fmtAPI (fmtAPI "FROM t" "my db") "my db" = "FROM [my db].[dbo].[my] db].[dbo].[t]" ∧
    fmtAPI (fmtAPI "FROM t" "my db") "my db" ≠ fmtAPI "FROM t" "my db" := by
  decide

/-- C2: the spec claims every `FROM`/`JOIN` target in the output is a fully
qualified `[db].[schema].[table]` reference.  The code refutes this (see the
counterexample: a four-part chain leaves a trailing `.d`, and the
`api_routes.py` pattern strands a `.b` after its one-group rewrite).
Amended property, proved here: the `llm_integration.py` output is render
after scan, and every segment the scan rewrites does render as the clause
followed by a bracketed three-part reference with non-empty class-clean
schema and table parts — the incompleteness is confined to text the pattern
never matched. -/
theorem c2_rewritten_segments_fully_qualified (q db : String)
    (hq : q.data ≠ []) (hdb : db.data ≠ []) :
    fmtLLM q db = ⟨render db.data (scanSegs q.data.length none q.data)⟩ ∧
    ∀ cl ws g cons, Seg.rep cl ws g cons ∈ scanSegs q.data.length none q.data →
      ∃ X, renderSeg db.data (Seg.rep cl ws g cons) = cl ++ mkRef db.data X g.table ∧
        kwHead4 cl = true ∧ X ≠ [] ∧ (∀ c ∈ X, isC1 c = true) ∧
        g.table ≠ [] ∧ (∀ c ∈ g.table, isC2 c = true) := by
  refine ⟨fmtLLM_render q db hq hdb, ?_⟩
  intro cl ws g cons hm
  have hwf := scan_WF q.data.length none q.data (le_refl _)
  obtain ⟨hparts, hk⟩ := WFs_mem_rep hwf hm
  obtain ⟨X, hshape, hXne, hXC1, _, _⟩ := replaceRef_shape db.data cl hparts
  exact ⟨X, hshape, hk, hXne, hXC1, hparts.1.1, hparts.1.2⟩

/-- Witness for C2 at a concrete query and database name. -/
theorem c2_qualification_witness :
    fmtLLM "SELECT * FROM t" "S" =
      ⟨render "S".data
        (scanSegs "SELECT * FROM t".data.length none "SELECT * FROM t".data)⟩ ∧
    ∃ X, renderSeg "S".data (Seg.rep "FROM".data [' '] ⟨none, none, "t".data⟩ "t".data) =
        "FROM".data ++ mkRef "S".data X "t".data ∧
      kwHead4 "FROM".data = true ∧ X ≠ [] ∧ (∀ c ∈ X, isC1 c = true) ∧
      "t".data ≠ [] ∧ (∀ c ∈ "t".data, isC2 c = true) := by
  have h := c2_rewritten_segments_fully_qualified "SELECT * FROM t" "S"
    (by decide) (by decide)
  exact ⟨h.1, h.2 "FROM".data [' '] ⟨none, none, "t".data⟩ "t".data (by decide)⟩

/-- Qualification completeness fails on whole outputs: both live normalizers
leave partially qualified references behind (the checker accepts a genuinely
fully qualified output, so it is not vacuous). -/
theorem c2_qualification_counterexample :
    allRefsQualified none (fmtLLM "SELECT * FROM a.b.c.d" "Sales").data = false ∧
    allRefsQualified none (fmtAPI "SELECT * FROM a.b" "Sales").data = false ∧
    allRefsQualified none "SELECT * FROM [Sales].[dbo].[T]".data = true := by
  decide

/-- C3: the spec claims every normalizer discards type-token qualifiers and
rewrites to `[db].[dbo].[table]`.  Only `llm_integration.py` does; the other
two keep the token (see the counterexample).  Amended property, proved here:
the `llm_integration.py` normalizer maps the spec's own example to the
required output for every non-empty database name, and its replacement
function sends any match whose captured qualifier carries a type token to
the `dbo` rewrite. -/
theorem c3_llm_type_token_defense :
    (∀ db : String, db.data ≠ [] →
      fmtLLM "SELECT * FROM varchar.Customers" db =
        "SELECT * FROM [" ++ db ++ "].[dbo].[Customers]") ∧
    (∀ (db cl : List Char) (g : RefGroups),
      (tokCheck g.first || tokCheck g.second) = true →
      replaceRef db cl g = cl ++ mkRef db "dbo".data g.table) := by
  constructor
  · intro db hdb
    rw [fmtLLM_render "SELECT * FROM varchar.Customers" db (by decide) hdb]
    have hsc : scanSegs "SELECT * FROM varchar.Customers".data.length none
        "SELECT * FROM varchar.Customers".data =
        "SELECT * ".data.map Seg.copy ++
          [Seg.rep "FROM".data [' '] ⟨some "varchar".data, none, "Customers".data⟩
            "varchar.Customers".data] := by decide
    rw [hsc, render_append, render_copies, render_cons, render_nil]
    rw [show renderSeg db.data
        (Seg.rep "FROM".data [' '] ⟨some "varchar".data, none, "Customers".data⟩
          "varchar.Customers".data) =
        replaceRef db.data "FROM".data ⟨some "varchar".data, none, "Customers".data⟩
      from rfl]
    rw [replaceRef_tok db.data "FROM".data
      ⟨some "varchar".data, none, "Customers".data⟩ (by decide)]
    apply strExt
    show "SELECT * ".data ++ (("FROM".data ++ mkRef db.data "dbo".data "Customers".data) ++ []) =
      ("SELECT * FROM [" ++ db ++ "].[dbo].[Customers]").data
    rw [strData_app, strData_app]
    simp [mkRef, refChain]
  · exact replaceRef_tok

/-- Witness for C3 at a concrete database name and captured groups. -/
theorem c3_type_token_witness :
    fmtLLM "SELECT * FROM varchar.Customers" "MyDb" =
      "SELECT * FROM [" ++ "MyDb" ++ "].[dbo].[Customers]" ∧
    replaceRef "MyDb".data "FROM".data ⟨some "int".data, none, "T".data⟩ =
      "FROM".data ++ mkRef "MyDb".data "dbo".data "T".data := by
  have h := c3_llm_type_token_defense
  exact ⟨h.1 "MyDb" (by decide),
    h.2 "MyDb".data "FROM".data ⟨some "int".data, none, "T".data⟩ (by decide)⟩

/-- The other two normalizers keep the type token as a schema name. -/
theorem c3_type_token_counterexample :
    fmtAPI "SELECT * FROM varchar.Customers" "MyDb" =
      "SELECT * FROM [MyDb].[dbo].[varchar].Customers" ∧
    fmtQG "SELECT * FROM varchar.Customers" "MyDb" =
      "SELECT * FROM [MyDb].[varchar].[Customers]" ∧
    fmtQG "SELECT * FROM varchar.Customers" "MyDb" ≠
      "SELECT * FROM [MyDb].[dbo].[Customers]" := by
  decide

/-- C4: the spec claims the extractor returns the last fenced SQL block of
the considered text.  True of `extract_sql_from_response` in
`api_routes.py`; false of the `llm_integration.py` version, which takes the
first block (see the counterexample).  Amended property, proved here: the
`api_routes.py` extractor always returns the stripped last block of the
post-`<think>` text, while the `llm_integration.py` extractor returns the
stripped first block whenever that strip is non-empty. -/
theorem c4_block_choice :
    (∀ t : String, (extract_sql_api t).1 =
      ((sqlBlocks (consideredText t)).getLast?).map
        (fun b => (⟨pyStrip b⟩ : String))) ∧
    (∀ (t : String) (b : List Char) (bs : List (List Char)),
      t.data ≠ [] → sqlBlocks t.data = b :: bs → pyStrip b ≠ [] →
      extract_sql_llm t = (some ⟨pyStrip b⟩, none)) := by
  constructor
  · intro t
    cases hf : findThink t.data with
    | none =>
      simp only [extract_sql_api, consideredText, hf]
      cases hl : (sqlBlocks t.data).getLast? <;> simp [hl]
    | some pr =>
      obtain ⟨c, r⟩ := pr
      simp only [extract_sql_api, consideredText, hf]
      cases hl : (sqlBlocks r).getLast? <;> simp [hl]
  · intro t b bs hne hsb hps
    have he : t.data.isEmpty = false := isEmpty_false_of_ne hne
    have hpe : (pyStrip b).isEmpty = false := isEmpty_false_of_ne hps
    simp only [extract_sql_llm, he, hsb]
    simp [hpe]

/-- Witness for C4 at concrete responses. -/
theorem c4_block_choice_witness :
    (extract_sql_api "x ```sql\nSELECT 7\n``` y").1 =
      ((sqlBlocks (consideredText "x ```sql\nSELECT 7\n``` y")).getLast?).map
        (fun b => (⟨pyStrip b⟩ : String)) ∧
    extract_sql_llm "```sql\nSELECT 7\n```" = (some ⟨pyStrip "SELECT 7".data⟩, none) := by
  have h := c4_block_choice
  exact ⟨h.1 "x ```sql\nSELECT 7\n``` y",
    h.2 "```sql\nSELECT 7\n```" "SELECT 7".data [] (by decide) (by decide) (by decide)⟩

/-- With two fenced blocks, the live `llm_integration.py` extractor returns
the first, not the last. -/
theorem c4_block_choice_counterexample :
    sqlBlocks "```sql\nSELECT 1\n```\nblah\n```sql\nSELECT 2\n```".data =
      ["SELECT 1".data, "SELECT 2".data] ∧
    extract_sql_llm "```sql\nSELECT 1\n```\nblah\n```sql\nSELECT 2\n```" =
      (some "SELECT 1", none) ∧
    extract_sql_llm "```sql\nSELECT 1\n```\nblah\n```sql\nSELECT 2\n```" ≠
      (some "SELECT 2", none) := by
  decide

/-- C5: the spec claims all `<think>`-wrapped content is stripped and never
returned as the query.  The pattern only matches the first wrapper, so a
block inside a second wrapper is returned (see the counterexample).  Amended
property, proved here: when the `<think>` pattern matches, the
`api_routes.py` extractor scans exactly the text after the first closing
tag and separately returns the stripped first wrapper content, as on the
spec's own example. -/
theorem c5_think_stripping :
    (∀ (t : String) (content rest : List Char),
      findThink t.data = some (content, rest) →
      extract_sql_api t =
        (((sqlBlocks rest).getLast?).map (fun b => (⟨pyStrip b⟩ : String)),
          some ⟨pyStrip content⟩)) ∧
    extract_sql_api "<think>plan</think>\n```sql\nSELECT 1\n```" =
      (some "SELECT 1", some "plan") := by
  constructor
  · intro t content rest h
    simp only [extract_sql_api, h]
    cases hl : (sqlBlocks rest).getLast? <;> simp [hl]
  · decide

/-- Witness for C5 at a concrete wrapped response. -/
theorem c5_think_stripping_witness :
    extract_sql_api "<think>p</think>ok" =
      (((sqlBlocks "ok".data).getLast?).map (fun b => (⟨pyStrip b⟩ : String)),
        some ⟨pyStrip "p".data⟩) :=
  (c5_think_stripping).1 "<think>p</think>ok" "p".data "ok".data (by decide)

/-- A fenced block inside a second `<think>` wrapper is returned as the
query: wrapped content is not, in general, excluded from extraction. -/
theorem c5_think_stripping_counterexample :
    extract_sql_api ("<think>a</think>" ++ "<think>```sql\nSELECT 9\n```</think>") =
      (some "SELECT 9", some "a") := by
  decide

/-- C6: the spec claims refusal phrases short-circuit extraction to a
no-query outcome with a non-empty reason even when `SELECT` occurs in the
text.  No refusal detection exists in either extractor: the
`llm_integration.py` fallback happily extracts SQL out of a refusal that
mentions `SELECT`, and the `api_routes.py` extractor returns no reason at
all (see the counterexample).  Amended property, proved here: a response
with no fenced block and no `SELECT` word yields `(none, reason)` from the
`llm_integration.py` extractor and `(none, none)` from the `api_routes.py`
one — refusals are handled only as an absence of recognizable SQL. -/
theorem c6_refusal_handling :
    (∀ t : String, t.data ≠ [] → sqlBlocks t.data = [] →
      hasSelectW none t.data = false →
      extract_sql_llm t = (none, some "No SQL query found in the response")) ∧
    (∀ t : String, findThink t.data = none → sqlBlocks t.data = [] →
      extract_sql_api t = (none, none)) := by
  constructor
  · intro t hne hsb hsel
    have he : t.data.isEmpty = false := isEmpty_false_of_ne hne
    simp only [extract_sql_llm, he, hsb]
    simp [llmFallback, hsel]
  · intro t hf hsb
    simp [extract_sql_api, hf, hsb]

/-- Witness for C6 at the spec's refusal phrase. -/
theorem c6_refusal_witness :
    extract_sql_llm "I cannot generate a query for this request." =
      (none, some "No SQL query found in the response") ∧
    extract_sql_api "I cannot generate a query for this request." = (none, none) := by
  have h := c6_refusal_handling
  exact ⟨h.1 "I cannot generate a query for this request." (by decide) (by decide) (by decide),
    h.2 "I cannot generate a query for this request." (by decide) (by decide)⟩

/-- A refusal that also contains a bare `SELECT` statement is extracted as
SQL by the fallback — the opposite of the claimed short-circuit. -/
theorem c6_refusal_counterexample :
    extract_sql_llm "I cannot generate a query for this request.\nSELECT 1 FROM T;" =
      (some "SELECT 1 FROM T", none) := by
  decide

/-- C7: an always-failing executor produces exactly `MAX_RETRIES` logged
refinement attempts and terminates in the `Failed` state, and no run ever
logs more than `MAX_RETRIES` attempts.  The orchestration is modelled from
the spec (sections 4.6 and 8): only its ingredients — `MAX_RETRIES`,
`refine_sql_with_feedback`, the attempt records and the single-shot
`execute_query` route — appear under `src/`. -/
theorem c7_retry_bound (exec : String → Option String)
    (refine : String → String → String) (q : String) :
    (logOf (runPipeline exec refine q)).length ≤ MAX_RETRIES ∧
    ((∀ s, exec s ≠ none) →
      ∃ e log, runPipeline exec refine q = .failed e log ∧
        log.length = MAX_RETRIES) := by
  constructor
  · unfold runPipeline
    cases hx : exec q with
    | none => simp [logOf]
    | some e =>
      have := retry_logBound exec refine MAX_RETRIES q e []
      simpa using this
  · intro hf
    unfold runPipeline
    cases hx : exec q with
    | none => exact absurd hx (hf q)
    | some e =>
      obtain ⟨e2, log2, heq, hlen⟩ := retry_allFail exec refine hf MAX_RETRIES q e []
      exact ⟨e2, log2, heq, by simpa using hlen⟩

/-- Witness for C7 with a concrete always-failing executor. -/
theorem c7_retry_bound_witness :
    (logOf (runPipeline (fun _ => some "err") (fun q2 _ => q2) "Q")).length ≤
      MAX_RETRIES ∧
    ∃ e log, runPipeline (fun _ => some "err") (fun q2 _ => q2) "Q" = .failed e log ∧
      log.length = MAX_RETRIES := by
  have h := c7_retry_bound (fun _ => some "err") (fun q2 _ => q2) "Q"
  exact ⟨h.1, h.2 (fun s hs => Option.noConfusion hs)⟩

/-- C8: the spec claims refinement never raises and falls back to the
original query when nothing is extractable.  When the model call itself
fails, `query_ollama` returns `None` and
`extract_sql_from_response(None)` raises `TypeError` (see the
counterexample).  Amended property, proved here: whenever the model call
does return a response, refinement returns a query — the original one if
extraction yields nothing or an empty string. -/
theorem c8_failsoft_refinement (ollama : String → Option String)
    (sql err resp : String) (h : ollama (feedbackPrompt sql err) = some resp) :
    (∃ q, refine_sql_with_feedback ollama sql err = .ok q) ∧
    (((extract_sql_api resp).1 = none ∨ (extract_sql_api resp).1 = some "") →
      refine_sql_with_feedback ollama sql err = .ok sql) := by
  unfold refine_sql_with_feedback
  rw [h]
  dsimp only
  cases hx : (extract_sql_api resp).1 with
  | none => exact ⟨⟨sql, rfl⟩, fun _ => rfl⟩
  | some q =>
    refine ⟨⟨if q.data.isEmpty then sql else q, rfl⟩, ?_⟩
    intro hc
    rcases hc with hc | hc
    · cases hc
    · injection hc with hc
      subst hc
      rfl

/-- Witness for C8 with a concrete responding model whose answer contains no
SQL. -/
theorem c8_failsoft_witness :
    (∃ q, refine_sql_with_feedback (fun _ => some "no sql here") "SELECT 1" "boom" =
      .ok q) ∧
    refine_sql_with_feedback (fun _ => some "no sql here") "SELECT 1" "boom" =
      .ok "SELECT 1" := by
  have h := c8_failsoft_refinement (fun _ => some "no sql here") "SELECT 1" "boom"
    "no sql here" rfl
  exact ⟨h.1, h.2 (Or.inl (by decide))⟩

/-- When the model call fails, refinement raises instead of returning the
original query: the fail-soft guarantee does not cover this path. -/
theorem c8_failsoft_counterexample :
    refine_sql_with_feedback (fun _ => none) "SELECT 1" "boom" =
      .exn "TypeError: expected string or bytes-like object" := by
  decide

/-- C9: every normalizer is total — on keyword-free text all three return
the query untouched, and the `llm_integration.py` scan is insensitive to
any sufficient fuel while its trace always reproduces the whole input, so
no input is rejected or left partially processed. -/
theorem c9_normalizer_totality (q db : String) :
    (kwFree q.data = true →
      fmtLLM q db = q ∧ fmtAPI q db = q ∧ fmtQG q db = q) ∧
    (∀ fuel, q.data.length ≤ fuel →
      scanSegs fuel none q.data = scanSegs q.data.length none q.data ∧
      orig (scanSegs fuel none q.data) = q.data) := by
  constructor
  · intro hkw
    refine ⟨?_, ?_, ?_⟩
    · unfold fmtLLM
      by_cases hc : (q.data.isEmpty || db.data.isEmpty) = true
      · rw [if_pos hc]
      · rw [if_neg hc, scan_id_llm q.data.length none q.data hkw, render_copies]
    · unfold fmtAPI
      by_cases hc : db.data.isEmpty = true
      · rw [if_pos hc]
      · rw [if_neg hc, scanAPI_id db.data q.data.length none q.data hkw]
    · unfold fmtQG
      by_cases hc : (q.data.isEmpty || db.data.isEmpty) = true
      · rw [if_pos hc]
      · rw [if_neg hc, scanQG_id db.data q.data.length none q.data hkw]
  · intro fuel hf
    exact ⟨scanSegs_fuel fuel q.data.length none q.data hf (le_refl _),
      orig_scan fuel none q.data hf⟩

/-- Witness for C9 at a keyword-free query. -/
theorem c9_totality_witness :
    (fmtLLM "select x where y" "D" = "select x where y" ∧
      fmtAPI "select x where y" "D" = "select x where y" ∧
      fmtQG "select x where y" "D" = "select x where y") ∧
    (scanSegs 20 none "select x where y".data =
      scanSegs "select x where y".data.length none "select x where y".data ∧
      orig (scanSegs 20 none "select x where y".data) = "select x where y".data) := by
  have h := c9_normalizer_totality "select x where y" "D"
  exact ⟨h.1 (by decide), h.2 20 (by decide)⟩

/-- C10: with an empty query or an empty (falsy) database name, all three
normalizers return the query unchanged — the guards of
`llm_integration.py` and `query_generation.py` fire, and the scan of
`api_routes.py` (which only guards the database name) has nothing to
rewrite on an empty query. -/
theorem c10_empty_inputs_identity (q db : String)
    (h : q.data = [] ∨ db.data = []) :
    fmtLLM q db = q ∧ fmtAPI q db = q ∧ fmtQG q db = q := by
  rcases h with hq | hdb
  · have hqe : q.data.isEmpty = true := by rw [hq]; rfl
    exact ⟨by simp [fmtLLM, hqe], fmtAPI_nil q db hq, by simp [fmtQG, hqe]⟩
  · have hdbe : db.data.isEmpty = true := by rw [hdb]; rfl
    exact ⟨by simp [fmtLLM, hdbe], by simp [fmtAPI, hdbe], by simp [fmtQG, hdbe]⟩

/-- Witness for C10 at an empty query and at an empty database name. -/
theorem c10_empty_inputs_witness :
    (fmtLLM "" "Db" = "" ∧ fmtAPI "" "Db" = "" ∧ fmtQG "" "Db" = "") ∧
    (fmtLLM "SELECT 1 FROM T" "" = "SELECT 1 FROM T" ∧
      fmtAPI "SELECT 1 FROM T" "" = "SELECT 1 FROM T" ∧
      fmtQG "SELECT 1 FROM T" "" = "SELECT 1 FROM T") :=
  ⟨c10_empty_inputs_identity "" "Db" (Or.inl rfl),
    c10_empty_inputs_identity "SELECT 1 FROM T" "" (Or.inr rfl)⟩

end SqlSage
